import Mathlib

/-!
Verification of the diff-result core of vorta: the diff parsers
(`parse_diff_json`, `parse_diff_lines`, `size_to_byte` in
`src/vorta/views/diff_result.py`) and the path tree model
(`FileTreeModel` in `src/vorta/views/partials/treemodel.py`), shallowly
embedded as pure Lean functions.

Conventions of the embedding:
* Python `PurePath` values are represented by their `parts`, i.e.
  `List String` (relative paths without empty segments, which is the
  shape borg produces and `PurePath` yields for them).
* Python `None`-able values become `Option`.
* Python exceptions become `Except String` results (or `Option` where only
  failure matters); an uncaught exception aborting a loop is modelled by the
  fold stopping at the first error.
* Python `int` is `Int` (arbitrary precision in both).
* CPython `float` is modelled exactly by `pyFloat`: rationals rounded to
  53 significant bits with round-half-to-even (binary64 without
  overflow/subnormal handling, which the inputs here never reach).
* The `_flattened` list of `FileTreeModel` holds Python object references;
  since attached nodes have pairwise distinct paths, the list is represented
  by the list of the member items' paths.
-/

/-- The reduced change classification from `borg diff`
(class `ChangeType` in diff_result.py).  In Python the enum members
`ADDED_DIR`/`ADDED_LINK` alias `ADDED`, `REMOVED_DIR`/`REMOVED_LINK` alias
`REMOVED`, and `CHANGED_LINK`/`MODE`/`OWNER` alias `MODIFIED`, so the carrier
has exactly these four values (0, 1, 2, 3). -/
inductive ChangeType where
  | NONE
  | ADDED
  | MODIFIED
  | REMOVED
deriving DecidableEq, Repr

/-- Python alias `ChangeType.CHANGED_LINK = ChangeType.MODIFIED`. -/
def ChangeType.CHANGED_LINK : ChangeType := ChangeType.MODIFIED

/-- Python alias `ChangeType.MODE = ChangeType.MODIFIED`. -/
def ChangeType.MODE : ChangeType := ChangeType.MODIFIED

/-- Python alias `ChangeType.OWNER = ChangeType.MODIFIED`. -/
def ChangeType.OWNER : ChangeType := ChangeType.MODIFIED

/-- The possible file types of a changed file (class `FileType`). -/
inductive FileType where
  | FILE
  | DIRECTORY
  | LINK
deriving DecidableEq, Repr

/-- The data linked to a diff item (dataclass `DiffData`).
`change_type` is an `Option` because `parse_diff_json` initialises the local
`change_type` to Python `None` and leaves it so for a record with an empty
change list. -/
structure DiffData where
  file_type : FileType
  change_type : Option ChangeType
  size : Int
  mode_change : Option (String × String) := none
  owner_change : Option (String × String × String × String) := none
  modified : Option (Int × Int) := none
deriving DecidableEq, Repr

/-- A node of the virtual file system
(class `FileSystemItem` in treemodel.py).  `data` is `none` exactly when the
Python attribute is `None` (`DiffData` instances are always truthy). -/
inductive FSItem where
  | mk (path : List String) (sub : String) (data : Option DiffData)
      (children : List FSItem)

/-- `FileSystemItem.path`. -/
def FSItem.path : FSItem → List String
  | .mk p _ _ _ => p

/-- `FileSystemItem.subpath`. -/
def FSItem.sub : FSItem → String
  | .mk _ s _ _ => s

/-- `FileSystemItem.data`. -/
def FSItem.data : FSItem → Option DiffData
  | .mk _ _ d _ => d

/-- `FileSystemItem.children`. -/
def FSItem.children : FSItem → List FSItem
  | .mk _ _ _ c => c

/-- `FileSystemItem.get`: find the direct child with the given subpath,
returning its index and the child (first match wins, as in the Python
`enumerate` loop). -/
def fsGet (cs : List FSItem) (s : String) : Option (Nat × FSItem) :=
  match cs with
  | [] => none
  | c :: rest =>
      if c.sub = s then some (0, c)
      else (fsGet rest s).map (fun ix => (ix.1 + 1, ix.2))

/-- `FileSystemItem.get_subpath`: walk the path parts with `get`,
propagating absence. -/
def getSub (n : FSItem) : List String → Option FSItem
  | [] => some n
  | s :: rest =>
      match fsGet n.children s with
      | none => none
      | some ix => getSub ix.2 rest

/-- The display modes of `FileTreeModel` (enum `DisplayMode`). -/
inductive DisplayMode where
  | TREE
  | SIMPLIFIED_TREE
  | FLAT
deriving DecidableEq, Repr

/-- The state of a `DiffTree` model: the root item, the `_flattened`
parallel list (represented by member paths) and the display mode. -/
structure Model where
  root : FSItem
  flattened : List (List String)
  mode : DisplayMode

/-- `FileTreeModel.__init__`: empty root with `None` data, TREE mode,
empty flat list. -/
def emptyModel : Model :=
  { root := .mk [] "" none [], flattened := [], mode := .TREE }

/-- `DiffTree._flat_filter` applied to an item whose data is `d`:
`item.data and item.data.change_type != ChangeType.NONE`.  Also the
characterisation of a "real" (non-placeholder) payload. -/
def realData (d : Option DiffData) : Bool :=
  match d with
  | none => false
  | some dd => dd.change_type ≠ some ChangeType.NONE

/-- The default payload `DiffTree._process_child` assigns to a freshly
created item whose data is `None`:
`DiffData(FileType.DIRECTORY, ChangeType.NONE, 0)`. -/
def defaultData : DiffData :=
  { file_type := .DIRECTORY, change_type := some .NONE, size := 0 }

/-- `FileTreeModel._merge_data` (as inherited by `DiffTree`): keep the first
non-`None` data; `DiffData` objects are always truthy, so an existing payload
is never overwritten. -/
def mergeData (c : FSItem) (d : Option DiffData) : FSItem :=
  match c with
  | .mk p s cd cs => if cd.isNone then .mk p s d cs else .mk p s cd cs

/-- The `add_size` walk of `DiffTree._process_child` at a single ancestor:
add `s` to the item's size.  The Python code runs the walk only when the new
child's size is nonzero, hence the guard. -/
def bump (n : FSItem) (s : Int) : FSItem :=
  if s = 0 then n
  else
    match n with
    | .mk p sp d cs =>
        .mk p sp (d.map (fun dd => { dd with size := dd.size + s })) cs

/-- The size of an optional payload (0 for `None`, used for the root). -/
def dataSize (d : Option DiffData) : Int :=
  match d with
  | none => 0
  | some dd => dd.size

/-- Core of `FileTreeModel.addItem`/`_addChild` for `DiffTree`: insert the
remaining `parts` below `n` (whose path is `acc`).  Returns the updated
node, the size of a newly created terminal payload (to be added to every
strict ancestor of the terminal, excluding the root — `add_size`), and the
paths appended to `_flattened` (`_flat_filter` is applied to the data as
passed, before `_process_child` fills in the default). -/
def insertGo (n : FSItem) (acc : List String) (parts : List String)
    (d : Option DiffData) : FSItem × Int × List (List String) :=
  match parts with
  | [] => (n, 0, [])
  | [last] =>
      match fsGet n.children last with
      | some ix =>
          (.mk n.path n.sub n.data (n.children.set ix.1 (mergeData ix.2 d)),
            0, [])
      | none =>
          let dd := d.getD defaultData
          let child : FSItem := .mk (acc ++ [last]) last (some dd) []
          (.mk n.path n.sub n.data (n.children ++ [child]), dd.size,
            if realData d then [acc ++ [last]] else [])
  | p1 :: p2 :: rest =>
      match fsGet n.children p1 with
      | some ix =>
          let r := insertGo ix.2 (acc ++ [p1]) (p2 :: rest) d
          (.mk n.path n.sub n.data (n.children.set ix.1 (bump r.1 r.2.1)),
            r.2.1, r.2.2)
      | none =>
          let c0 : FSItem := .mk (acc ++ [p1]) p1 (some defaultData) []
          let r := insertGo c0 (acc ++ [p1]) (p2 :: rest) d
          (.mk n.path n.sub n.data (n.children ++ [bump r.1 r.2.1]),
            r.2.1, r.2.2)

/-- `FileTreeModel.addItem` for a `DiffTree`: walk/create the nodes for every
path prefix, attach `data` to the terminal (first-write-wins via
`_merge_data`), give fresh nodes the default payload and roll the new
terminal's size up the ancestor chain (`_process_child`), and append the new
item to `_flattened` when `_flat_filter` accepts it.  The structural effect
is the same in all three display modes (the branches differ only in the Qt
signals they emit).  An empty path is left as a no-op (the Python code would
raise an `IndexError`; no caller passes one). -/
def addItem (m : Model) (p : List String) (d : Option DiffData) : Model :=
  match p with
  | [] => m
  | _ =>
      let r := insertGo m.root [] p d
      { m with root := r.1, flattened := m.flattened ++ r.2.2 }

/-- `FileTreeModel.getItem`. -/
def getItem (m : Model) (p : List String) : Option FSItem :=
  getSub m.root p

/-- `FileTreeModel.setMode`: set the display mode, nothing else
(the Qt model reset signals are not part of the state). -/
def setMode (m : Model) (v : DisplayMode) : Model :=
  if v = m.mode then m else { m with mode := v }

/-- Structural part of `FileTreeModel.removeItem`: rebuild the spine down to
the parent located at `pp` and delete its child at index `i`
(`parent.remove(i)`). -/
def removeAt (n : FSItem) (pp : List String) (i : Nat) : FSItem :=
  match pp with
  | [] => .mk n.path n.sub n.data (n.children.eraseIdx i)
  | s :: rest =>
      match fsGet n.children s with
      | none => n
      | some ix =>
          .mk n.path n.sub n.data
            (n.children.set ix.1 (removeAt ix.2 rest i))

/-- Remove the paths of the direct children of the removed item from
`_flattened`, one `list.remove`/`del list[index(child)]` at a time; a child
that is not in the list makes the Python code raise `ValueError` (`none`). -/
def removeChildPaths (fl : List (List String)) :
    List FSItem → Option (List (List String))
  | [] => some fl
  | c :: cs =>
      if c.path ∈ fl then removeChildPaths (fl.erase c.path) cs else none

/-- `FileTreeModel.removeItem`: locate the parent of `path` and the item
itself (silent no-op when either is missing), then delete the item's direct
children and the item from `_flattened` and the item (with its whole
subtree) from the tree.  The FLAT and TREE branches of the Python code have
the same effect on the state (they differ in signals and in using
`del list[list.index(x)]` versus `list.remove(x)`), including the quirk that
only *direct* children are removed from `_flattened` and that the index of
the item is computed before the children are deleted.  `none` models the
uncaught `ValueError` when the item or a direct child is not in
`_flattened`. -/
def removeItem (m : Model) (p : List String) : Option Model :=
  match p.getLast? with
  | none => some m
  | some name =>
      let pp := p.dropLast
      match getSub m.root pp with
      | none => some m
      | some parent =>
          match fsGet parent.children name with
          | none => some m
          | some ix =>
              match m.flattened.findIdx? (· == ix.2.path) with
              | none => none
              | some fi =>
                  match removeChildPaths m.flattened ix.2.children with
                  | none => none
                  | some fl1 =>
                      some { m with
                        root := removeAt m.root pp ix.1,
                        flattened := fl1.eraseIdx fi }

/-! ### An exact model of CPython binary64 floats

`size_to_byte` computes `int(float(significand) * 10**k)`.  CPython floats
are IEEE-754 binary64 values; away from overflow and subnormals (all inputs
here are between 10^-3 and 10^15) a binary64 operation returns the exact
rational result rounded to 53 significant bits with round-half-to-even.
We model that rounding exactly on `ℚ`. -/

/-- An exact (unnormalised) fraction with positive denominator.  All the
arithmetic below keeps `den > 0`, so comparisons can cross-multiply.
(Plain structural definitions, unlike `ℚ` whose operations are
`@[irreducible]` and do not evaluate inside `decide`.) -/
structure Frac where
  num : ℤ
  den : ℤ
deriving DecidableEq, Repr

/-- Embed an integer. -/
def Frac.ofInt (n : ℤ) : Frac := ⟨n, 1⟩

/-- `a ≤ b` for fractions with positive denominators. -/
def Frac.le (a b : Frac) : Bool := a.num * b.den ≤ b.num * a.den

/-- `a < b` for fractions with positive denominators. -/
def Frac.lt (a b : Frac) : Bool := a.num * b.den < b.num * a.den

/-- Exact product. -/
def Frac.mul (a b : Frac) : Frac := ⟨a.num * b.num, a.den * b.den⟩

/-- `q / 2^e` exactly (for any sign of `e`). -/
def Frac.divPow2 (q : Frac) (e : ℤ) : Frac :=
  if 0 ≤ e then ⟨q.num, q.den * 2^e.toNat⟩ else ⟨q.num * 2^(-e).toNat, q.den⟩

/-- `|q|`. -/
def Frac.abs (q : Frac) : Frac := ⟨|q.num|, q.den⟩

/-- `⌊q⌋` (floor division; `den > 0`). -/
def Frac.floor (q : Frac) : ℤ := Int.fdiv q.num q.den

/-- Round a fraction to the nearest integer, ties to even. -/
def roundHalfEven (q : Frac) : ℤ :=
  let f := q.floor
  let r : Frac := ⟨q.num - f * q.den, q.den⟩
  if r.lt ⟨1, 2⟩ then f
  else if Frac.lt ⟨1, 2⟩ r then f + 1
  else if Int.emod f 2 = 0 then f else f + 1

/-- Whether `e` is the binary64 exponent for `q ≠ 0`, i.e. `|q| / 2^e` lies
in `[2^52, 2^53)`. -/
def goodExp (q : Frac) (e : ℤ) : Bool :=
  Frac.le ⟨2^(52 : ℕ), 1⟩ (q.abs.divPow2 e) &&
    Frac.lt (q.abs.divPow2 e) ⟨2^(53 : ℕ), 1⟩

/-- Search upward/downward for the binary64 exponent of `q ≠ 0`
(`⌊log2 |q|⌋ - 52`), with enough fuel for the whole binary64 range. -/
def pickExpGo (fuel : ℕ) (q : Frac) (e : ℤ) (up : Bool) : ℤ :=
  match fuel with
  | 0 => e
  | fuel + 1 =>
      if goodExp q e then e
      else pickExpGo fuel q (if up then e + 1 else e - 1) up

/-- The binary64 exponent of `q ≠ 0`. -/
def pickExp (q : Frac) : ℤ :=
  if goodExp q 0 then 0
  else if Frac.le ⟨2^(53 : ℕ), 1⟩ q.abs then pickExpGo 4000 q 1 true
  else pickExpGo 4000 q (-1) false

/-- The binary64 value nearest to the rational `q` (53 significant bits,
round-half-to-even), as an exact fraction.  Overflow and subnormals are not
modelled; the values occurring here are far inside the normal range. -/
def pyFloat (q : Frac) : Frac :=
  if q.num = 0 then ⟨0, 1⟩
  else
    let e := pickExp q
    let m := roundHalfEven (q.abs.divPow2 e)
    (Frac.ofInt (if q.num < 0 then -m else m)).mul
      (if 0 ≤ e then ⟨2^e.toNat, 1⟩ else ⟨1, 2^(-e).toNat⟩)

/-- Python `int(x)` for a float `x`: truncate toward zero
(`Int.tdiv` is T-division; `den > 0`). -/
def truncQ (q : Frac) : ℤ :=
  Int.tdiv q.num q.den

/-- Accumulator loop for `digitsToNat`. -/
def digitsToNatGo (acc : ℕ) : List Char → Option ℕ
  | [] => some acc
  | c :: rest =>
      if c.isDigit then digitsToNatGo (acc * 10 + (c.toNat - 48)) rest
      else none

/-- The value of a list of decimal digits (`none` on a non-digit or an empty
list). -/
def digitsToNat : List Char → Option ℕ
  | [] => none
  | l => digitsToNatGo 0 l

/-- Python `float(s)` for the strings matched by `[\d.]+`: the decimal value
of the string as an exact fraction; a string that is not a well-formed
decimal literal raises `ValueError`. -/
def parseDecimal (s : String) : Except String Frac :=
  match s.data.splitOn '.' with
  | [a] =>
      match digitsToNat a with
      | some n => .ok (Frac.ofInt n)
      | none => .error ("could not convert string to float: " ++ s)
  | [a, b] =>
      match (if a.isEmpty then some 0 else digitsToNat a),
          (if b.isEmpty then some 0 else digitsToNat b) with
      | some x, some y =>
          if a.isEmpty && b.isEmpty then
            .error ("could not convert string to float: " ++ s)
          else .ok ⟨x * 10^b.length + y, 10^b.length⟩
      | _, _ => .error ("could not convert string to float: " ++ s)
  | _ => .error ("could not convert string to float: " ++ s)

/-- Python `int(s)` for a digit string (`\d+`). -/
def intParse (s : String) : Except String ℤ :=
  match digitsToNat s.data with
  | some n => .ok (n : ℤ)
  | none => .error ("invalid literal for int: " ++ s)

/-- `size_to_byte`: convert a size with a unit identifier from borg into a
number of bytes.  For `B` the significand is parsed with `int`; for the
other units it is parsed with `float`, multiplied by the decimal power
(exactly representable in binary64, so only the product is rounded) in
float arithmetic, and truncated with `int`.  An unknown unit raises. -/
def size_to_byte (significand unit : String) : Except String ℤ :=
  if unit = "B" then intParse significand
  else if unit = "kB" ∨ unit = "KB" then
    (parseDecimal significand).map
      (fun q => truncQ (pyFloat ((pyFloat q).mul (Frac.ofInt (10^(3 : ℕ))))))
  else if unit = "MB" then
    (parseDecimal significand).map
      (fun q => truncQ (pyFloat ((pyFloat q).mul (Frac.ofInt (10^(6 : ℕ))))))
  else if unit = "GB" then
    (parseDecimal significand).map
      (fun q => truncQ (pyFloat ((pyFloat q).mul (Frac.ofInt (10^(9 : ℕ))))))
  else if unit = "TB" then
    (parseDecimal significand).map
      (fun q => truncQ (pyFloat ((pyFloat q).mul (Frac.ofInt (10^(12 : ℕ))))))
  else .error ("Unknown unit `" ++ unit ++ "`")

deriving instance DecidableEq for Except


/-! ### The structured diff parser (`parse_diff_json`) -/

/-- A borg structured change fact: the dict `{'type': ..., ...}` restricted
to the keys the parser reads; a key the parser requires but the dict lacks
raises `KeyError`, modelled by `Option`. -/
structure JsonChange where
  type : String
  added : Option ℤ := none
  removed : Option ℤ := none
  size : Option ℤ := none
  old_mode : Option String := none
  new_mode : Option String := none
  old_user : Option String := none
  old_group : Option String := none
  new_user : Option String := none
  new_group : Option String := none
deriving DecidableEq, Repr

/-- A borg structured diff record `{'path': ..., 'changes': [...]}`. -/
structure JsonRecord where
  path : String
  changes : List JsonChange
deriving DecidableEq, Repr

/-- Python `change[key]` for a required key: `KeyError` when missing. -/
def reqKey {α : Type} (o : Option α) (k : String) : Except String α :=
  match o with
  | some v => .ok v
  | none => .error ("KeyError: " ++ k)

/-- `PurePath(s).parts` for the relative paths borg emits: the nonempty
segments between slashes. -/
def splitPath (s : String) : List String :=
  ((s.data.splitOn '/').filter (fun l => l ≠ [])).map (fun l => String.mk l)

/-- The local variables of the per-record loop body of `parse_diff_json`
(and of `parse_diff_lines`), before they are packed into a `DiffData`. -/
structure PJState where
  file_type : FileType := .FILE
  size : ℤ := 0
  change_type : Option ChangeType := none
  mode_change : Option (String × String) := none
  owner_change : Option (String × String × String × String) := none
  modified : Option (ℤ × ℤ) := none
deriving DecidableEq, Repr

/-- Pack the loop state into the `DiffData` passed to `model.addItem`. -/
def PJState.toDiffData (st : PJState) : DiffData :=
  { file_type := st.file_type, change_type := st.change_type,
    size := st.size, mode_change := st.mode_change,
    owner_change := st.owner_change, modified := st.modified }

/-- The change-fact types handled by the add/remove branch of
`parse_diff_json`. -/
def arTypes : List String :=
  ["added", "removed", "added link", "removed link", "added directory",
    "removed directory"]

/-- One iteration of the fact loop of `parse_diff_json`: dispatch on
`change['type']` and update the loop variables.  The Python membership
tests `'directory' in change['type']` and `'link' in change['type']` and
the split `change['type'].split()[0] == 'added'` are written out as the
equivalent case distinctions over the six strings of `arTypes`. -/
def jsonStep (st : PJState) (c : JsonChange) : Except String PJState :=
  if c = { type := "modified" } then
    -- modified, but ids not comparable: no added/removed counts
    .ok { st with change_type := some .MODIFIED }
  else if c.type = "modified" then do
    let a ← reqKey c.added "added"
    let r ← reqKey c.removed "removed"
    .ok { st with change_type := some .MODIFIED, size := a - r,
                  modified := some (a, r) }
  else if c.type = "changed link" then
    .ok { st with change_type := some ChangeType.CHANGED_LINK,
                  file_type := .LINK }
  else if c.type ∈ arTypes then
    let ft :=
      if c.type = "added directory" ∨ c.type = "removed directory" then
        FileType.DIRECTORY
      else if c.type = "added link" ∨ c.type = "removed link" then
        FileType.LINK
      else st.file_type
    let size := c.size.getD 0
    if c.type = "added" ∨ c.type = "added link" ∨
        c.type = "added directory" then
      .ok { st with file_type := ft, change_type := some .ADDED,
                    size := size }
    else
      .ok { st with file_type := ft, change_type := some .REMOVED,
                    size := -size }
  else if c.type = "mode" then do
    -- mode change can occur along with previous changes
    let om ← reqKey c.old_mode "old_mode"
    let nm ← reqKey c.new_mode "new_mode"
    .ok { st with change_type := some ChangeType.MODE,
                  mode_change := some (om, nm) }
  else if c.type = "owner" then do
    -- owner change can occur along with previous changes
    let ou ← reqKey c.old_user "old_user"
    let og ← reqKey c.old_group "old_group"
    let nu ← reqKey c.new_user "new_user"
    let ng ← reqKey c.new_group "new_group"
    .ok { st with change_type := some ChangeType.OWNER,
                  owner_change := some (ou, og, nu, ng) }
  else .error ("Unknown change type: " ++ c.type)

/-- The fact loop of `parse_diff_json`, processing the facts in order. -/
def processChanges (st : PJState) : List JsonChange → Except String PJState
  | [] => .ok st
  | c :: cs =>
      match jsonStep st c with
      | .ok st' => processChanges st' cs
      | .error e => .error e

/-- One iteration of the record loop of `parse_diff_json`: run the fact
loop and add `(path, DiffData(...))` to the model. -/
def processRecord (m : Model) (r : JsonRecord) : Except String Model :=
  (processChanges {} r.changes).map
    (fun st => addItem m (splitPath r.path) (some st.toDiffData))

/-- `parse_diff_json`: process the records in order; an exception aborts
the loop, keeping the insertions made so far (the caller's model object)
and surfacing the message. -/
def parse_diff_json : List JsonRecord → Model → Model × Option String
  | [], m => (m, none)
  | r :: rs, m =>
      match processRecord m r with
      | .ok m' => parse_diff_json rs m'
      | .error e => (m, some e)

/-! ### The textual diff parser (`re_changed_file`, `parse_diff_lines`)

The pattern

```
(((?P<a_r>added|removed) (?P<ar_type>directory|link|\s+(?P<size>\d+)
   (?P<size_unit>\w+))\s* )
 |((?P<cl>changed link\s* )
  |((?P<modified>\s*\+?(?P<added>[\d.]+) (?P<added_unit>\w+)\s*
     -?(?P<removed>[\d.]+) (?P<removed_unit>\w+)\s+)?)
   (?P<owner>\[(?P<old_user>[\w ]+):(?P<old_group>[\w ]+) ->
     (?P<new_user>[\w ]+):(?P<new_group>[\w ]+)\]\s+)?
   (?P<mode>\[(?P<old_mode>[\w-]{10}) -> (?P<new_mode>[\w-]{10})\]\s+)?))
(?P<path>.*)
```

is matched with `fullmatch`.  Backtracking collapses to a deterministic
procedure: alternatives are tried left to right, every character class is
disjoint from the literal that follows its greedy run except where noted,
and the final `.*` absorbs the rest of the line (it cannot cross a
newline, so a remaining newline fails the fullmatch; `parse_diff_lines`
only ever passes newline-free lines).  The two spots where greedy matching
genuinely backtracks are `\s*` followed by a literal space (the engine
settles on the last space of the whitespace run) and `[\w ]+` followed by
literal ` -> ` (since `-` is outside the class, the engine settles on a
class run whose last character is the space of ` -> `). -/

/-- `\w` (ASCII fragment; the inputs contain no other word characters). -/
def isWordC (c : Char) : Bool := c.isAlphanum || c = '_'

/-- `\s`. -/
def isSpaceC (c : Char) : Bool :=
  c = ' ' || c = '\t' || c = '\n' || c = '\r' || c = '\x0b' || c = '\x0c'

/-- `[\d.]`. -/
def isModC (c : Char) : Bool := c.isDigit || c = '.'

/-- `[\w-]`. -/
def isModeC (c : Char) : Bool := isWordC c || c = '-'

/-- `[\w ]`. -/
def isOwnerC (c : Char) : Bool := isWordC c || c = ' '

/-- Split off the maximal prefix run of characters satisfying `p`. -/
def takeClass (p : Char → Bool) : List Char → List Char × List Char
  | [] => ([], [])
  | c :: rest =>
      if p c then
        let r := takeClass p rest
        (c :: r.1, r.2)
      else ([], c :: rest)

/-- Match a literal. -/
def dropLit : List Char → List Char → Option (List Char)
  | [], s => some s
  | _ :: _, [] => none
  | a :: as, b :: bs => if a = b then dropLit as bs else none

/-- The characters after the last `' '` of a list, if any. -/
def afterLastSpace : List Char → Option (List Char)
  | [] => none
  | c :: rest =>
      match afterLastSpace rest with
      | some tail => some tail
      | none => if c = ' ' then some rest else none

/-- `\s*` followed by a literal `' '`: the engine takes the whitespace run
greedily and gives back characters until the literal space matches, i.e. it
settles on the last `' '` of the run.  Fails when the run contains no
space. -/
def wsThenSpace (s : List Char) : Option (List Char) :=
  let t := takeClass isSpaceC s
  (afterLastSpace t.1).map (· ++ t.2)

/-- `\s+` (at least one whitespace character, then maximal). -/
def ws1 (s : List Char) : Option (List Char) :=
  match s with
  | c :: rest => if isSpaceC c then some (takeClass isSpaceC rest).2 else none
  | [] => none

/-- The `\s+(?P<size>\d+) (?P<size_unit>\w+)` alternative of `ar_type`,
followed by the closing `\s* ` of the add/remove clause.  Returns the text
of the `ar_type` group, the `size` and `size_unit` groups, and the rest of
the line. -/
def tryARsize (s : List Char) :
    Option (List Char × (List Char × List Char) × List Char) :=
  let w := takeClass isSpaceC s
  if w.1.isEmpty then none
  else
    let dg := takeClass Char.isDigit w.2
    if dg.1.isEmpty then none
    else
      match dg.2 with
      | ' ' :: s3 =>
          let u := takeClass isWordC s3
          if u.1.isEmpty then none
          else
            (wsThenSpace u.2).map
              (fun rest => (w.1 ++ dg.1 ++ ' ' :: u.1, (dg.1, u.1), rest))
      | _ => none

/-- The `ar_type` alternation `directory|link|\s+(\d+) (\w+)` followed by
the closing `\s* ` of the add/remove clause. -/
def tryARkind (s : List Char) :
    Option (List Char × Option (List Char × List Char) × List Char) :=
  match dropLit "directory".data s with
  | some s1 =>
      match wsThenSpace s1 with
      | some rest => some ("directory".data, none, rest)
      | none => (tryARsize s).map (fun r => (r.1, some r.2.1, r.2.2))
  | none =>
  match dropLit "link".data s with
  | some s1 =>
      match wsThenSpace s1 with
      | some rest => some ("link".data, none, rest)
      | none => (tryARsize s).map (fun r => (r.1, some r.2.1, r.2.2))
  | none => (tryARsize s).map (fun r => (r.1, some r.2.1, r.2.2))

/-- The first top-level alternative `(?P<a_r>added|removed) (?P<ar_type>…)\s* `.
Returns the `a_r` group, the `ar_type` group, the optional
`size`/`size_unit` groups and the rest of the line. -/
def tryAR (s : List Char) :
    Option (List Char × List Char × Option (List Char × List Char) ×
      List Char) :=
  match dropLit "added ".data s with
  | some s1 => (tryARkind s1).map (fun r => ("added".data, r))
  | none =>
      match dropLit "removed ".data s with
      | some s1 => (tryARkind s1).map (fun r => ("removed".data, r))
      | none => none

/-- The `(?P<cl>changed link\s* )` alternative. -/
def tryCL (s : List Char) : Option (List Char) :=
  (dropLit "changed link".data s).bind wsThenSpace

/-- An optional literal (`\+?`, `-?`): consume the character when
present. -/
def stripOpt (c : Char) : List Char → List Char
  | [] => []
  | c2 :: r => if c2 = c then r else c2 :: r

/-- The optional modified clause
`\s*\+?([\d.]+) (\w+)\s*-?([\d.]+) (\w+)` followed by `\s+`.  Returns the
`added`, `added_unit`, `removed`, `removed_unit` groups and the rest. -/
def tryModified (s : List Char) :
    Option ((List Char × List Char × List Char × List Char) × List Char) :=
  let w := takeClass isSpaceC s
  let s2 := stripOpt '+' w.2
  let ad := takeClass isModC s2
  if ad.1.isEmpty then none
  else
    match ad.2 with
    | ' ' :: s4 =>
        let au := takeClass isWordC s4
        if au.1.isEmpty then none
        else
          let w2 := takeClass isSpaceC au.2
          let s7 := stripOpt '-' w2.2
          let rm := takeClass isModC s7
          if rm.1.isEmpty then none
          else
            match rm.2 with
            | ' ' :: s9 =>
                let ru := takeClass isWordC s9
                if ru.1.isEmpty then none
                else
                  (ws1 ru.2).map
                    (fun rest => ((ad.1, au.1, rm.1, ru.1), rest))
            | _ => none
    | _ => none

/-- `[\w ]+` followed by the literal `':'` (outside the class, so the
greedy run is final). -/
def colonSplit (s : List Char) : Option (List Char × List Char) :=
  let r := takeClass isOwnerC s
  if r.1.isEmpty then none
  else
    match r.2 with
    | ':' :: rest => some (r.1, rest)
    | _ => none

/-- `[\w ]+` followed by the literal `' -> '`.  Since `-` is outside the
class, the engine must place the literal's space on the last character of
the greedy class run. -/
def arrowSplit (s : List Char) : Option (List Char × List Char) :=
  let r := takeClass isOwnerC s
  match r.1.reverse with
  | ' ' :: pre =>
      if pre.isEmpty then none
      else (dropLit "-> ".data r.2).map (fun rest => (pre.reverse, rest))
  | _ => none

/-- `[\w ]+` followed by the literal `']'`. -/
def brackSplit (s : List Char) : Option (List Char × List Char) :=
  let r := takeClass isOwnerC s
  if r.1.isEmpty then none
  else
    match r.2 with
    | ']' :: rest => some (r.1, rest)
    | _ => none

/-- The optional owner clause
`\[([\w ]+):([\w ]+) -> ([\w ]+):([\w ]+)\]` followed by `\s+`. -/
def tryOwner (s : List Char) :
    Option ((List Char × List Char × List Char × List Char) × List Char) :=
  match s with
  | '[' :: s1 =>
      match colonSplit s1 with
      | none => none
      | some (ou, s2) =>
          match arrowSplit s2 with
          | none => none
          | some (og, s3) =>
              match colonSplit s3 with
              | none => none
              | some (nu, s4) =>
                  match brackSplit s4 with
                  | none => none
                  | some (ng, s5) =>
                      (ws1 s5).map (fun rest => ((ou, og, nu, ng), rest))
  | _ => none

/-- `[\w-]{10}` (exactly ten characters of the class). -/
def take10Mode (s : List Char) : Option (List Char × List Char) :=
  let r := s.take 10
  if r.length = 10 && r.all isModeC then some (r, s.drop 10) else none

/-- The optional mode clause `\[([\w-]{10}) -> ([\w-]{10})\]` followed by
`\s+`. -/
def tryMode (s : List Char) :
    Option ((List Char × List Char) × List Char) :=
  match s with
  | '[' :: s1 =>
      match take10Mode s1 with
      | none => none
      | some (om, s2) =>
          match dropLit " -> ".data s2 with
          | none => none
          | some s3 =>
              match take10Mode s3 with
              | none => none
              | some (nm, s4) =>
                  match s4 with
                  | ']' :: s5 => (ws1 s5).map (fun rest => ((om, nm), rest))
                  | _ => none
  | _ => none

/-- The named groups of a `re_changed_file` match that the parser reads.
A group is `none`/`false` when its clause did not participate in the
match. -/
structure LineGroups where
  a_r : Option (List Char) := none
  ar_type : Option (List Char) := none
  size : Option (List Char) := none
  size_unit : Option (List Char) := none
  cl : Bool := false
  modified : Option (List Char × List Char × List Char × List Char) := none
  owner : Option (List Char × List Char × List Char × List Char) := none
  mode : Option (List Char × List Char) := none
  path : List Char := []
deriving DecidableEq, Repr

/-- `re_changed_file.fullmatch(line)`: try the add/remove alternative, then
the changed-link alternative, then the three optional clauses; the `path`
group takes the rest of the line.  `.*` cannot match a newline, so a
leftover newline fails the fullmatch (for the newline-free lines
`parse_diff_lines` produces this function is exact). -/
def re_changed_file (s : List Char) : Option LineGroups :=
  match tryAR s with
  | some (ar, t, szu, rest) =>
      if '\n' ∈ rest then none
      else some { a_r := some ar, ar_type := some t,
                  size := szu.map Prod.fst, size_unit := szu.map Prod.snd,
                  path := rest }
  | none =>
  match tryCL s with
  | some rest =>
      if '\n' ∈ rest then none else some { cl := true, path := rest }
  | none =>
      let m1 := match tryModified s with
        | some (g, r) => (some g, r)
        | none => (none, s)
      let m2 := match tryOwner m1.2 with
        | some (g, r) => (some g, r)
        | none => (none, m1.2)
      let m3 := match tryMode m2.2 with
        | some (g, r) => (some g, r)
        | none => (none, m2.2)
      if '\n' ∈ m3.2 then none
      else some { modified := m1.1, owner := m2.1, mode := m3.1,
                  path := m3.2 }

/-- Python truthiness of an optional regex group (`None` and the empty
string are falsy). -/
def groupTruthy (o : Option (List Char)) : Bool :=
  match o with
  | some (_ :: _) => true
  | _ => false

/-- The body of the line loop of `parse_diff_lines`: match the line against
`re_changed_file` (an unmatched line raises) and derive the path and the
`DiffData`.  The `if parsed_line['ar_type']` branch keeps the Python
layout: its `else` (the `size_to_byte` computation for a plain added or
removed file) is unreachable, because the `ar_type` group is nonempty
whenever `a_r` matched. -/
def parse_line (line : List Char) : Except String (List String × DiffData) := do
  match re_changed_file line with
  | none =>
      .error ("Could not parse diff output `" ++ String.mk line ++ "`")
  | some g =>
      let path := splitPath (String.mk g.path)
      let st : PJState := {}
      let st ←
        if groupTruthy g.a_r then do
          -- added or removed
          let st ←
            if groupTruthy g.ar_type then
              pure (if g.ar_type = some "directory".data then
                      { st with file_type := FileType.DIRECTORY }
                    else if g.ar_type = some "link".data then
                      { st with file_type := FileType.LINK }
                    else st)
            else do
              -- normal file (dead code, see the doc comment)
              let sz ← reqKey (g.size.map String.mk) "size"
              let su ← reqKey (g.size_unit.map String.mk) "size_unit"
              let v ← size_to_byte sz su
              pure { st with size := v }
          if g.a_r = some "added".data then
            pure { st with change_type := some ChangeType.ADDED }
          else if g.a_r = some "removed".data then
            pure { st with change_type := some ChangeType.REMOVED,
                           size := -st.size }
          else pure st
        else do
          let st := { st with change_type := some ChangeType.MODIFIED }
          let st := match g.owner with
            | some (ou, og, nu, ng) =>
                let oc := (String.mk ou, String.mk og, String.mk nu,
                  String.mk ng)
                { st with owner_change := some oc }
            | none => st
          if g.cl then
            -- links cannot have changed permissions
            pure { st with change_type := some ChangeType.CHANGED_LINK,
                           file_type := FileType.LINK }
          else do
            -- modified contents or mode
            let st ←
              match g.modified with
              | some (ad, au, rm, ru) => do
                  let a ← size_to_byte (String.mk ad) (String.mk au)
                  let r ← size_to_byte (String.mk rm) (String.mk ru)
                  pure { st with modified := some (a, r), size := a - r }
              | none => pure st
            let st := match g.mode with
              | some (om, nm) =>
                  { st with mode_change := some (String.mk om, String.mk nm) }
              | none => st
            pure st
      pure (path, st.toDiffData)

/-- `parse_diff_lines`: process the lines in order, skipping empty ones; an
exception aborts the loop, keeping the insertions made so far and surfacing
the message. -/
def parse_diff_lines : List (List Char) → Model → Model × Option String
  | [], m => (m, none)
  | l :: ls, m =>
      if l.isEmpty then parse_diff_lines ls m
      else
        match parse_line l with
        | .ok pd => parse_diff_lines ls (addItem m pd.1 (some pd.2))
        | .error e => (m, some e)

/-! ### Specification-side definitions

These definitions follow the wording of the specification (size roll-up,
fact priority, mode projection); the theorems below compare them with the
embedded code. -/

mutual

/-- The sum of `size` over the leaves of the subtree of `n` that carry a
real (non-placeholder) payload, i.e. one whose change type is not `NONE`. -/
def leafSum : FSItem → ℤ
  | .mk _ _ d [] => if realData d then dataSize d else 0
  | .mk _ _ _ (c :: cs) => leafSumL (c :: cs)

/-- Sum of `leafSum` over a list of subtrees. -/
def leafSumL : List FSItem → ℤ
  | [] => 0
  | c :: cs => leafSum c + leafSumL cs

end

mutual

/-- Whether a node's stored `size` equals the real-leaf sum of its subtree,
recursively for the whole subtree. -/
def subOK : FSItem → Bool
  | .mk p s d cs => (dataSize d == leafSum (.mk p s d cs)) && subOKL cs

/-- `subOK` for every tree in the list. -/
def subOKL : List FSItem → Bool
  | [] => true
  | c :: cs => subOK c && subOKL cs

end

/-- `sizesOK m` states the size-aggregation invariant of the spec for every
node of `m` below the root: the stored `size_delta` equals the sum of the
`size_delta` of the descendant leaves carrying real payloads. -/
def sizesOK (m : Model) : Bool :=
  subOKL m.root.children

/-- `starts p q`: `q` is an initial segment of `p`. -/
def starts : List String → List String → Bool
  | _, [] => true
  | [], _ :: _ => false
  | a :: as, b :: bs => a = b && starts as bs

/-- `properExt p q`: the path `p` strictly extends the path `q`. -/
def properExt (p q : List String) : Bool :=
  starts p q && decide (q.length < p.length)

mutual

/-- The `(path, payload)` pairs stored in a subtree. -/
def treePairs : FSItem → List (List String × Option DiffData)
  | .mk p _ d cs => (p, d) :: treePairsL cs

/-- `treePairs` over a list of subtrees. -/
def treePairsL : List FSItem → List (List String × Option DiffData)
  | [] => []
  | c :: cs => treePairs c ++ treePairsL cs

end

/-- The reduced classification a single recognised change fact contributes
in `parse_diff_json` (`none` for an unrecognised fact, which raises
instead). -/
def factClass (c : JsonChange) : Option ChangeType :=
  if c = { type := "modified" } then some .MODIFIED
  else if c.type = "modified" then some .MODIFIED
  else if c.type = "changed link" then some .MODIFIED
  else if c.type ∈ arTypes then
    if c.type = "added" ∨ c.type = "added link" ∨
        c.type = "added directory" then some .ADDED
    else some .REMOVED
  else if c.type = "mode" then some .MODIFIED
  else if c.type = "owner" then some .MODIFIED
  else none

/-- The classification of the last fact of a record (`none` when no fact
contributes one). -/
def lastFactClass (cs : List JsonChange) : Option ChangeType :=
  cs.foldl
    (fun a c =>
      match factClass c with
      | some k => some k
      | none => a)
    none

/-! ### Helper lemmas -/

theorem FSItem.eta (n : FSItem) : FSItem.mk n.path n.sub n.data n.children = n := by
  cases n
  rfl

theorem bump_zero (n : FSItem) : bump n 0 = n := by
  simp [bump]

theorem mergeData_none (c : FSItem) : mergeData c none = c := by
  cases c with
  | mk p s cd cs =>
      simp only [mergeData]
      split
      case isTrue h => rw [Option.isNone_iff_eq_none] at h; rw [h]
      case isFalse h => rfl

theorem mergeData_isSome (c : FSItem) (d : Option DiffData)
    (h : c.data.isSome) : mergeData c d = c := by
  cases c with
  | mk p s cd cs =>
      simp only [FSItem.data] at h
      simp only [mergeData]
      rw [if_neg]
      simp [Option.isNone_iff_eq_none]
      intro he
      rw [he] at h
      simp at h

theorem fsGet_set_self (cs : List FSItem) (s : String) (ix : Nat × FSItem)
    (h : fsGet cs s = some ix) : cs.set ix.1 ix.2 = cs := by
  induction cs generalizing ix with
  | nil => simp [fsGet] at h
  | cons c rest ih =>
      simp only [fsGet] at h
      split at h
      case isTrue =>
          cases h
          rfl
      case isFalse =>
          cases hr : fsGet rest s with
          | none => rw [hr] at h; simp at h
          | some jx =>
              rw [hr] at h
              simp only [Option.map_some'] at h
              cases h
              simp only [List.set]
              rw [ih jx hr]

theorem insertGo_found (parts : List String) (n : FSItem) (acc : List String)
    (d : Option DiffData) (t : FSItem) (hfound : getSub n parts = some t)
    (hne : parts ≠ []) (hd : d = none ∨ t.data.isSome) :
    insertGo n acc parts d = (n, 0, []) := by
  induction parts generalizing n acc with
  | nil => exact absurd rfl hne
  | cons p1 rest ih =>
      cases rest with
      | nil =>
          simp only [getSub] at hfound
          cases hg : fsGet n.children p1 with
          | none => rw [hg] at hfound; simp at hfound
          | some ix =>
              rw [hg] at hfound
              simp only [getSub] at hfound
              cases hfound
              simp only [insertGo, hg]
              have hm : mergeData ix.2 d = ix.2 := by
                cases hd with
                | inl h0 => rw [h0]; exact mergeData_none ix.2
                | inr hs => exact mergeData_isSome ix.2 d hs
              rw [hm, fsGet_set_self n.children p1 ix hg, FSItem.eta]
      | cons p2 rest2 =>
          simp only [getSub] at hfound
          cases hg : fsGet n.children p1 with
          | none => rw [hg] at hfound; simp at hfound
          | some ix =>
              rw [hg] at hfound
              have hrec := ih ix.2 (acc ++ [p1]) hfound (by simp)
              simp only [insertGo, hg, hrec, bump_zero]
              rw [fsGet_set_self n.children p1 ix hg, FSItem.eta]

theorem addItem_existing (m : Model) (p : List String) (d : Option DiffData)
    (t : FSItem) (hfound : getItem m p = some t)
    (hd : d = none ∨ t.data.isSome) : addItem m p d = m := by
  cases p with
  | nil => rfl
  | cons p1 rest =>
      unfold addItem
      rw [insertGo_found (p1 :: rest) m.root [] d t hfound (by simp) hd]
      simp

/-! ### Claim theorems -/

/-- Payload `DiffData(FILE, ADDED, 0)` (shorthand for concrete
theorems). -/
def dAdd0 : DiffData := ⟨.FILE, some .ADDED, 0, none, none, none⟩

/-- Payload `DiffData(FILE, ADDED, 20)`. -/
def dAdd20 : DiffData := ⟨.FILE, some .ADDED, 20, none, none, none⟩

/-- Payload `DiffData(DIRECTORY, REMOVED, 0)`. -/
def dRemDir : DiffData := ⟨.DIRECTORY, some .REMOVED, 0, none, none, none⟩

/-- C6: `size_to_byte` converts a decimal significand with decimal
(non-binary) multipliers — B = 1, kB and KB = 10^3, MB = 10^6, GB = 10^9,
TB = 10^12 — and in particular `size_to_byte "77.8" "kB" = 77800` (the
binary64 rounding of `77.8` times the exact float `1000` rounds to exactly
`77800`). -/
theorem c6_size_to_byte_decimal_multipliers :
    size_to_byte "77.8" "kB" = .ok 77800 ∧
    size_to_byte "77.8" "KB" = .ok 77800 ∧
    size_to_byte "20" "B" = .ok 20 ∧
    size_to_byte "1" "kB" = .ok 1000 ∧
    size_to_byte "1.5" "MB" = .ok 1500000 ∧
    size_to_byte "2" "GB" = .ok 2000000000 ∧
    size_to_byte "3" "TB" = .ok 3000000000000 := by
  decide

/-- C9: `setMode` changes only the mode field: the underlying tree (root,
all nodes, their payloads and children — here: the whole `root` value and
its `(path, payload)` pairs) and the flat index list are identical before
and after, for every model state and every target mode. -/
theorem c9_setMode_changes_only_mode (m : Model) (v : DisplayMode) :
    (setMode m v).root = m.root ∧
    (setMode m v).flattened = m.flattened ∧
    treePairs (setMode m v).root = treePairs m.root := by
  refine ⟨?_, ?_, ?_⟩ <;> (simp only [setMode]; split <;> rfl)

/-- C2 (code bug): for the docstring line
`added          20 B home/theuser/Documents/testdir/file4` the textual
parser produces `size_delta = 0`, not the reported `20`: the
`else: # normal file` branch of `parse_diff_lines` binds to
`if parsed_line['ar_type']`, which is always truthy when `a_r` matched, so
the size computation is dead code.  The structured parser handles the
equivalent record correctly (`size_delta = 20`). -/
theorem c2_textual_add_size_dropped :
    (parse_diff_lines
      ["added          20 B home/theuser/Documents/testdir/file4".data]
      emptyModel).2 = none ∧
    ((getItem (parse_diff_lines
        ["added          20 B home/theuser/Documents/testdir/file4".data]
        emptyModel).1
      ["home", "theuser", "Documents", "testdir", "file4"]).map FSItem.data)
      = some (some dAdd0) ∧
    ((getItem (parse_diff_json
        [{ path := "home/theuser/Documents/testdir/file4",
           changes := [{ type := "added", size := some 20 }] }]
        emptyModel).1
      ["home", "theuser", "Documents", "testdir", "file4"]).map FSItem.data)
      = some (some dAdd20) := by
  decide

/-- C1 (counterexample): a record whose changes are an `added` fact (size 5)
followed by a `mode` fact is classified MODIFIED, not ADDED — each fact
overwrites the classification, so an add/remove fact does *not* win
regardless of facts occurring after it. -/
theorem c1_counterexample_mode_after_added :
    ((getItem (parse_diff_json
        [{ path := "p",
           changes := [{ type := "added", size := some 5 },
             { type := "mode", old_mode := some "-rw-rw-rw-",
               new_mode := some "-rw-r--r--" }] }]
        emptyModel).1 ["p"]).map
      (fun n => n.data.map (fun dd => dd.change_type)))
      = some (some (some ChangeType.MODIFIED)) ∧
    ChangeType.MODIFIED ≠ ChangeType.ADDED := by
  decide

/-- C3 (counterexample): an ancestor placeholder node does not receive its
own payload when an explicit record for its exact path arrives later:
inserting `a/b` creates the placeholder `a` with the default payload
(DIRECTORY, NONE, 0), which is non-null, so the later explicit payload
`dRemDir` for `a` is skipped by `_merge_data` and the placeholder payload
remains. -/
theorem c3_counterexample_placeholder_not_merged :
    ((getItem (addItem (addItem emptyModel ["a", "b"] (some dAdd0))
        ["a"] (some dRemDir)) ["a"]).map FSItem.data)
      = some (some defaultData) ∧
    defaultData ≠ dRemDir := by
  decide

/-- C3 (amended): payload merging is first-write-wins, and since every node
of the tree receives a non-null payload at creation (`_process_child`
assigns the default to placeholders), a later `addItem` for a path that is
already present — in particular an explicit diff record for an ancestor
placeholder — changes nothing at all: neither the payload nor the
structure nor the flat index. -/
theorem c3_amended_existing_path_insert_noop (m : Model) (p : List String)
    (t : FSItem) (hfound : getItem m p = some t) (hs : t.data.isSome)
    (d : Option DiffData) : addItem m p d = m :=
  addItem_existing m p d t hfound (Or.inr hs)

/-- Witness for `c3_amended_existing_path_insert_noop` at a concrete model:
the placeholder `a` created by inserting `a/b`, when `a` is inserted again
with the real payload `dRemDir`. -/
theorem c3_amended_witness :
    (getItem (addItem emptyModel ["a", "b"] (some dAdd0)) ["a"]).map
        FSItem.data = some (some defaultData) ∧
    addItem (addItem emptyModel ["a", "b"] (some dAdd0)) ["a"]
        (some dRemDir)
      = addItem emptyModel ["a", "b"] (some dAdd0) :=
  ⟨by decide,
    c3_amended_existing_path_insert_noop _ ["a"]
      (.mk ["a"] "a" (some defaultData) [.mk ["a", "b"] "b" (some dAdd0) []])
      (by rfl) (by rfl) _⟩

/-- C8: for every model state and every path already present in the tree,
calling `addItem (path, None)` again is idempotent: the resulting model is
the very same state (same nodes, same children lists, same flat index,
same payloads). -/
theorem c8_addItem_none_idempotent (m : Model) (p : List String)
    (t : FSItem) (hfound : getItem m p = some t) : addItem m p none = m :=
  addItem_existing m p none t hfound (Or.inl rfl)

/-- Witness for `c8_addItem_none_idempotent`: re-inserting `(a/b, None)`
into the model that already contains `a/b` is a no-op. -/
theorem c8_witness :
    (getItem (addItem emptyModel ["a", "b"] none) ["a", "b"]).isSome
        = true ∧
    addItem (addItem emptyModel ["a", "b"] none) ["a", "b"] none
      = addItem emptyModel ["a", "b"] none :=
  ⟨by decide,
    c8_addItem_none_idempotent _ ["a", "b"]
      (.mk ["a", "b"] "b" (some defaultData) []) (by rfl)⟩

theorem exceptBind_ok {α β : Type} {x : Except String α}
    {f : α → Except String β} {b : β} (h : (x >>= f) = .ok b) :
    ∃ a, x = .ok a ∧ f a = .ok b := by
  cases x with
  | error e => exact Except.noConfusion (show Except.error e = Except.ok b from h)
  | ok a => exact ⟨a, rfl, h⟩

theorem jsonStep_class (st st' : PJState) (c : JsonChange)
    (h : jsonStep st c = .ok st') :
    ∃ k, factClass c = some k ∧ st'.change_type = some k := by
  unfold jsonStep at h
  unfold factClass
  split_ifs at h ⊢ <;>
    (try obtain ⟨a1, ha1, h⟩ := exceptBind_ok h) <;>
    (try obtain ⟨a2, ha2, h⟩ := exceptBind_ok h) <;>
    (try obtain ⟨a3, ha3, h⟩ := exceptBind_ok h) <;>
    (try obtain ⟨a4, ha4, h⟩ := exceptBind_ok h) <;>
    (try simp only [] at h) <;>
    (cases h; exact ⟨_, rfl, rfl⟩)

theorem processChanges_change (cs : List JsonChange) :
    ∀ st0 st : PJState, processChanges st0 cs = .ok st →
      st.change_type = cs.foldl
        (fun a c =>
          match factClass c with
          | some k => some k
          | none => a)
        st0.change_type := by
  induction cs with
  | nil =>
      intro st0 st h
      cases h
      rfl
  | cons c cs ih =>
      intro st0 st h
      unfold processChanges at h
      cases hstep : jsonStep st0 c with
      | error e => rw [hstep] at h; exact Except.noConfusion h
      | ok st1 =>
          rw [hstep] at h
          obtain ⟨k, hk, hc⟩ := jsonStep_class st0 st1 c hstep
          rw [List.foldl_cons, hk]
          have hrec := ih st1 st h
          rw [hc] at hrec
          exact hrec

/-- C1 (amended): the `change` classification `parse_diff_json` assigns to
a record equals the classification of the *last* fact of the record (an
add/remove fact maps to ADDED/REMOVED; modified, changed-link, mode and
owner facts map to MODIFIED): each processed fact overwrites the
classification, so an add/remove fact wins only when no classifying fact
follows it, and the classification stays unset (Python `None`) exactly for
a record without facts. -/
theorem c1_amended_change_is_last_fact (cs : List JsonChange)
    (st : PJState) (h : processChanges {} cs = .ok st) :
    st.change_type = lastFactClass cs :=
  processChanges_change cs {} st h

/-- The fact list `added (size 5)` then `mode`. -/
def csAddThenMode : List JsonChange :=
  [{ type := "added", size := some 5 },
    { type := "mode", old_mode := some "-rw-rw-rw-",
      new_mode := some "-rw-r--r--" }]

/-- The loop state `parse_diff_json` reaches on `csAddThenMode`. -/
def stAddThenMode : PJState :=
  ⟨.FILE, 5, some .MODIFIED, some ("-rw-rw-rw-", "-rw-r--r--"), none, none⟩

/-- Witness for `c1_amended_change_is_last_fact`: the counterexample record
(`added` then `mode`) is classified by its last fact, MODIFIED. -/
theorem c1_amended_witness :
    processChanges {} csAddThenMode = .ok stAddThenMode ∧
    stAddThenMode.change_type = lastFactClass csAddThenMode :=
  ⟨by decide, c1_amended_change_is_last_fact _ _ (by decide)⟩

/-- The change-fact types `parse_diff_json` recognises; any other type
reaches the final `else` and raises. -/
def recognizedTypes : List String :=
  ["modified", "changed link"] ++ arTypes ++ ["mode", "owner"]

theorem parse_diff_json_abort (rs1 : List JsonRecord) :
    ∀ m m1 : Model, parse_diff_json rs1 m = (m1, none) →
      ∀ (r : JsonRecord) (rs2 : List JsonRecord) (e : String),
        processRecord m1 r = .error e →
        parse_diff_json (rs1 ++ r :: rs2) m = (m1, some e) := by
  induction rs1 with
  | nil =>
      intro m m1 h r rs2 e herr
      have hm : m = m1 := congrArg Prod.fst h
      subst hm
      show (match processRecord m r with
        | .ok m' => parse_diff_json rs2 m'
        | .error e => (m, some e)) = (m, some e)
      rw [herr]
  | cons r1 rest ih =>
      intro m m1 h r rs2 e herr
      unfold parse_diff_json at h
      show (match processRecord m r1 with
        | .ok m' => parse_diff_json (rest ++ r :: rs2) m'
        | .error e1 => (m, some e1)) = (m1, some e)
      cases hp : processRecord m r1 with
      | error e1 =>
          rw [hp] at h
          exact absurd (congrArg Prod.snd h) (by simp)
      | ok m' =>
          rw [hp] at h
          exact ih m' m1 h r rs2 e herr

theorem parse_diff_lines_abort (ls1 : List (List Char)) :
    ∀ m m1 : Model, parse_diff_lines ls1 m = (m1, none) →
      ∀ (l : List Char) (ls2 : List (List Char)) (e : String),
        l.isEmpty = false → parse_line l = .error e →
        parse_diff_lines (ls1 ++ l :: ls2) m = (m1, some e) := by
  induction ls1 with
  | nil =>
      intro m m1 h l ls2 e hne herr
      have hm : m = m1 := congrArg Prod.fst h
      subst hm
      show (if l.isEmpty then parse_diff_lines ls2 m
        else match parse_line l with
          | .ok pd => parse_diff_lines ls2 (addItem m pd.1 (some pd.2))
          | .error e => (m, some e)) = (m, some e)
      rw [hne]
      simp only [Bool.false_eq_true, if_false]
      rw [herr]
  | cons l1 rest ih =>
      intro m m1 h l ls2 e hne herr
      unfold parse_diff_lines at h
      show (if l1.isEmpty then parse_diff_lines (rest ++ l :: ls2) m
        else match parse_line l1 with
          | .ok pd => parse_diff_lines (rest ++ l :: ls2)
              (addItem m pd.1 (some pd.2))
          | .error e1 => (m, some e1)) = (m1, some e)
      cases he : l1.isEmpty with
      | true =>
          rw [if_pos he] at h
          exact ih m m1 h l ls2 e hne herr
      | false =>
          simp only [he, Bool.false_eq_true, if_false] at h ⊢
          cases hp : parse_line l1 with
          | error e1 =>
              rw [hp] at h
              exact absurd (congrArg Prod.snd h) (by simp)
          | ok pd =>
              rw [hp] at h
              exact ih (addItem m pd.1 (some pd.2)) m1 h l ls2 e hne herr

/-- C7: `size_to_byte` raises a parse error naming the unit for every unit
string outside `{B, kB, KB, MB, GB, TB}`; `parse_diff_json` raises a parse
error naming the type for every change fact whose type is outside the
recognised set; and such an error is fatal for the batch in both parsers:
the records after the failing one are not inserted — `parse_diff_json`
stops at the first failing record and `parse_diff_lines` stops at the
first failing line (where `size_to_byte` errors surface), the model
staying at the state reached before the failure, whatever follows. -/
theorem c7_parse_errors_fatal :
    (∀ s u : String, u ∉ ["B", "kB", "KB", "MB", "GB", "TB"] →
      size_to_byte s u = .error ("Unknown unit `" ++ u ++ "`")) ∧
    (∀ (st : PJState) (c : JsonChange), c.type ∉ recognizedTypes →
      jsonStep st c = .error ("Unknown change type: " ++ c.type)) ∧
    (∀ (rs1 rs2 : List JsonRecord) (r : JsonRecord) (m m1 : Model)
      (e : String),
      parse_diff_json rs1 m = (m1, none) → processRecord m1 r = .error e →
      parse_diff_json (rs1 ++ r :: rs2) m = (m1, some e)) ∧
    (∀ (ls1 ls2 : List (List Char)) (l : List Char) (m m1 : Model)
      (e : String),
      parse_diff_lines ls1 m = (m1, none) → l.isEmpty = false →
      parse_line l = .error e →
      parse_diff_lines (ls1 ++ l :: ls2) m = (m1, some e)) := by
  refine ⟨?_, ?_, ?_, ?_⟩
  · intro s u h
    simp only [List.mem_cons, List.not_mem_nil, or_false, not_or] at h
    obtain ⟨h1, h2, h3, h4, h5, h6⟩ := h
    simp [size_to_byte, h1, h2, h3, h4, h5, h6]
  · intro st c h
    simp only [recognizedTypes, arTypes, List.cons_append, List.nil_append,
      List.mem_cons, List.not_mem_nil, or_false, not_or] at h
    obtain ⟨h1, h2, h3, h4, h5, h6, h7, h8, h9, h10⟩ := h
    have hb : ¬(c = { type := "modified" }) := by
      intro he
      exact h1 (by rw [he])
    simp [jsonStep, arTypes, hb, h1, h2, h3, h4, h5, h6, h7, h8, h9, h10]
  · intro rs1 rs2 r m m1 e h herr
    exact parse_diff_json_abort rs1 m m1 h r rs2 e herr
  · intro ls1 ls2 l m m1 e h hne herr
    exact parse_diff_lines_abort ls1 m m1 h l ls2 e hne herr

/-- A well-formed record (`added`, size 3, path `g`). -/
def rGoodA : JsonRecord := { path := "g", changes := [{ type := "added", size := some 3 }] }

/-- A record with an unrecognised change type. -/
def rBad : JsonRecord := { path := "x", changes := [{ type := "bogus" }] }

/-- Another well-formed record, after the failing one. -/
def rGoodB : JsonRecord := { path := "h", changes := [{ type := "removed", size := some 1 }] }

/-- The model state after inserting `rGoodA` into the empty model. -/
def mGood : Model :=
  { root := .mk [] "" none
      [.mk ["g"] "g" (some ⟨.FILE, some .ADDED, 3, none, none, none⟩) []],
    flattened := [["g"]], mode := .TREE }

/-- A well-formed textual diff line (`added          20 B f1`; the dead
size branch gives it size 0, see C2). -/
def lGoodTxt : List Char := "added          20 B f1".data

/-- A textual line whose modified clause carries the unknown unit `XB`. -/
def lBadTxt : List Char := "+1 XB -1 B p".data

/-- A well-formed textual line after the failing one. -/
def lNextTxt : List Char := "added directory     d".data

/-- The model state after parsing `lGoodTxt` into the empty model. -/
def mTxt : Model where
  root := .mk [] "" none
    [.mk ["f1"] "f1" (some ⟨.FILE, some .ADDED, 0, none, none, none⟩) []]
  flattened := [["f1"]]
  mode := .TREE

/-- Witness for `c7_parse_errors_fatal`: the unit `XB`, the fact type
`bogus`, a structured batch whose second record fails — the third is not
inserted — and a textual batch whose second line fails with the unknown
unit `XB` — the third line is not inserted either. -/
theorem c7_witness :
    ("XB" ∉ ["B", "kB", "KB", "MB", "GB", "TB"] ∧
      size_to_byte "77.8" "XB" = .error ("Unknown unit `" ++ "XB" ++ "`")) ∧
    ("bogus" ∉ recognizedTypes ∧
      jsonStep {} { type := "bogus" }
        = .error ("Unknown change type: " ++ "bogus")) ∧
    (parse_diff_json [rGoodA] emptyModel = (mGood, none) ∧
      processRecord mGood rBad = .error "Unknown change type: bogus" ∧
      parse_diff_json ([rGoodA] ++ rBad :: [rGoodB]) emptyModel
        = (mGood, some "Unknown change type: bogus")) ∧
    (parse_diff_lines [lGoodTxt] emptyModel = (mTxt, none) ∧
      lBadTxt.isEmpty = false ∧
      parse_line lBadTxt = .error ("Unknown unit `" ++ "XB" ++ "`") ∧
      parse_diff_lines ([lGoodTxt] ++ lBadTxt :: [lNextTxt]) emptyModel
        = (mTxt, some ("Unknown unit `" ++ "XB" ++ "`"))) :=
  ⟨⟨by decide, (c7_parse_errors_fatal.1) "77.8" "XB" (by decide)⟩,
    ⟨by decide, (c7_parse_errors_fatal.2.1) {} { type := "bogus" } (by decide)⟩,
    ⟨by rfl, by rfl,
      (c7_parse_errors_fatal.2.2.1) [rGoodA] [rGoodB] rBad emptyModel mGood
        "Unknown change type: bogus" (by rfl) (by rfl)⟩,
    ⟨by rfl, by rfl, by rfl,
      (c7_parse_errors_fatal.2.2.2) [lGoodTxt] [lNextTxt] lBadTxt emptyModel
        mTxt ("Unknown unit `" ++ "XB" ++ "`") (by rfl) (by rfl) (by rfl)⟩⟩

theorem takeClass_decomp (p : Char → Bool) (s : List Char) :
    (takeClass p s).1 ++ (takeClass p s).2 = s := by
  induction s with
  | nil => rfl
  | cons c rest ih =>
      simp only [takeClass]
      split
      · simpa using ih
      · rfl

theorem takeClass_snd_sub (p : Char → Bool) (s : List Char) :
    (takeClass p s).2 ⊆ s := by
  intro c hc
  rw [← takeClass_decomp p s]
  exact List.mem_append_right _ hc

theorem dropLit_sub (lit : List Char) :
    ∀ s r : List Char, dropLit lit s = some r → r ⊆ s := by
  induction lit with
  | nil =>
      intro s r h
      cases h
      exact fun c hc => hc
  | cons a as ih =>
      intro s r h
      cases s with
      | nil => simp [dropLit] at h
      | cons b bs =>
          simp only [dropLit] at h
          split at h
          · exact fun c hc => List.mem_cons_of_mem b (ih bs r h hc)
          · exact Option.noConfusion h

theorem afterLastSpace_sub :
    ∀ l t : List Char, afterLastSpace l = some t → t ⊆ l := by
  intro l
  induction l with
  | nil => intro t h; exact Option.noConfusion h
  | cons c rest ih =>
      intro t h
      simp only [afterLastSpace] at h
      cases hr : afterLastSpace rest with
      | some tail =>
          rw [hr] at h
          have ht : tail = t := Option.some.inj h
          subst ht
          exact fun x hx => List.mem_cons_of_mem c (ih _ hr hx)
      | none =>
          rw [hr] at h
          by_cases hc : c = ' '
          · rw [if_pos hc] at h
            have ht : rest = t := Option.some.inj h
            subst ht
            exact fun x hx => List.mem_cons_of_mem c hx
          · rw [if_neg hc] at h
            exact Option.noConfusion h

theorem wsThenSpace_sub (s r : List Char) (h : wsThenSpace s = some r) :
    r ⊆ s := by
  simp only [wsThenSpace] at h
  cases ha : afterLastSpace (takeClass isSpaceC s).1 with
  | none => rw [ha] at h; exact Option.noConfusion h
  | some tail =>
      rw [ha] at h
      simp only [Option.map_some'] at h
      have ht : tail ++ (takeClass isSpaceC s).2 = r := Option.some.inj h
      subst ht
      intro c hc
      rw [← takeClass_decomp isSpaceC s]
      rcases List.mem_append.mp hc with h1 | h2
      · exact List.mem_append_left _ (afterLastSpace_sub _ tail ha h1)
      · exact List.mem_append_right _ h2

theorem ws1_sub (s r : List Char) (h : ws1 s = some r) : r ⊆ s := by
  cases s with
  | nil => exact Option.noConfusion h
  | cons c rest =>
      simp only [ws1] at h
      by_cases hc : isSpaceC c
      · rw [if_pos hc] at h
        have ht := Option.some.inj h
        subst ht
        exact fun x hx =>
          List.mem_cons_of_mem c (takeClass_snd_sub isSpaceC rest hx)
      · rw [if_neg hc] at h
        exact Option.noConfusion h

theorem stripOpt_sub (c : Char) (s : List Char) : stripOpt c s ⊆ s := by
  cases s with
  | nil => exact fun x hx => hx
  | cons c2 r =>
      simp only [stripOpt]
      split
      · exact fun x hx => List.mem_cons_of_mem c2 hx
      · exact fun x hx => hx

theorem tryARsize_sub (s t : List Char) (szu : List Char × List Char)
    (rest : List Char) (h : tryARsize s = some (t, szu, rest)) : rest ⊆ s := by
  simp only [tryARsize] at h
  split at h
  · exact Option.noConfusion h
  split at h
  · exact Option.noConfusion h
  split at h
  case _ c s3 heq =>
      split at h
      · exact Option.noConfusion h
      cases hws : wsThenSpace (takeClass isWordC s3).2 with
      | none => rw [hws] at h; exact Option.noConfusion h
      | some r2 =>
          rw [hws] at h
          simp only [Option.map_some'] at h
          have hr : r2 = rest := congrArg (fun x => x.2.2) (Option.some.inj h)
          subst hr
          intro x hx
          have hx1 := takeClass_snd_sub isWordC s3 (wsThenSpace_sub _ _ hws hx)
          have hx2 : x ∈ (takeClass Char.isDigit (takeClass isSpaceC s).2).2 := by
            rw [heq]
            exact List.mem_cons_of_mem _ hx1
          exact takeClass_snd_sub isSpaceC s (takeClass_snd_sub Char.isDigit _ hx2)
  · exact Option.noConfusion h

theorem tryARkind_sub (s t : List Char) (szu : Option (List Char × List Char))
    (rest : List Char) (h : tryARkind s = some (t, szu, rest)) : rest ⊆ s := by
  unfold tryARkind at h
  have hsize : (tryARsize s).map (fun r => (r.1, some r.2.1, r.2.2))
      = some (t, szu, rest) → rest ⊆ s := by
    intro hm
    cases hs : tryARsize s with
    | none => rw [hs] at hm; exact Option.noConfusion hm
    | some v =>
        rw [hs] at hm
        simp only [Option.map_some'] at hm
        have hr : v.2.2 = rest := congrArg (fun x => x.2.2) (Option.some.inj hm)
        exact hr ▸ tryARsize_sub s v.1 v.2.1 v.2.2 hs
  cases hd : dropLit "directory".data s with
  | some s1 =>
      rw [hd] at h
      dsimp only [] at h
      cases hws : wsThenSpace s1 with
      | some r1 =>
          rw [hws] at h
          dsimp only [] at h
          have hr : r1 = rest := congrArg (fun x => x.2.2) (Option.some.inj h)
          subst hr
          exact fun x hx => dropLit_sub _ s s1 hd (wsThenSpace_sub _ _ hws hx)
      | none =>
          rw [hws] at h
          dsimp only [] at h
          exact hsize h
  | none =>
      rw [hd] at h
      dsimp only [] at h
      cases hl : dropLit "link".data s with
      | some s1 =>
          rw [hl] at h
          dsimp only [] at h
          cases hws : wsThenSpace s1 with
          | some r1 =>
              rw [hws] at h
              dsimp only [] at h
              have hr : r1 = rest :=
                congrArg (fun x => x.2.2) (Option.some.inj h)
              subst hr
              exact fun x hx =>
                dropLit_sub _ s s1 hl (wsThenSpace_sub _ _ hws hx)
          | none =>
              rw [hws] at h
              dsimp only [] at h
              exact hsize h
      | none =>
          rw [hl] at h
          dsimp only [] at h
          exact hsize h

theorem tryAR_sub (s a t : List Char) (szu : Option (List Char × List Char))
    (rest : List Char) (h : tryAR s = some (a, t, szu, rest)) : rest ⊆ s := by
  unfold tryAR at h
  cases hd : dropLit "added ".data s with
  | some s1 =>
      rw [hd] at h
      dsimp only [] at h
      cases hk : tryARkind s1 with
      | none => rw [hk] at h; exact Option.noConfusion h
      | some v =>
          rw [hk] at h
          simp only [Option.map_some'] at h
          have hr : v.2.2 = rest :=
            congrArg (fun x => x.2.2.2) (Option.some.inj h)
          subst hr
          exact fun x hx =>
            dropLit_sub _ s s1 hd (tryARkind_sub s1 v.1 v.2.1 v.2.2 hk hx)
  | none =>
      rw [hd] at h
      dsimp only [] at h
      cases hd2 : dropLit "removed ".data s with
      | none => rw [hd2] at h; exact Option.noConfusion h
      | some s1 =>
          rw [hd2] at h
          dsimp only [] at h
          cases hk : tryARkind s1 with
          | none => rw [hk] at h; exact Option.noConfusion h
          | some v =>
              rw [hk] at h
              simp only [Option.map_some'] at h
              have hr : v.2.2 = rest :=
                congrArg (fun x => x.2.2.2) (Option.some.inj h)
              subst hr
              exact fun x hx =>
                dropLit_sub _ s s1 hd2 (tryARkind_sub s1 v.1 v.2.1 v.2.2 hk hx)

theorem tryCL_sub (s rest : List Char) (h : tryCL s = some rest) : rest ⊆ s := by
  unfold tryCL at h
  cases hd : dropLit "changed link".data s with
  | none => rw [hd] at h; exact Option.noConfusion h
  | some s1 =>
      rw [hd] at h
      exact fun x hx => dropLit_sub _ s s1 hd (wsThenSpace_sub s1 rest h hx)

theorem tryModified_sub (s : List Char)
    (g : List Char × List Char × List Char × List Char) (rest : List Char)
    (h : tryModified s = some (g, rest)) : rest ⊆ s := by
  simp only [tryModified] at h
  split at h
  · exact Option.noConfusion h
  split at h
  case _ s4 heq1 =>
      split at h
      · exact Option.noConfusion h
      split at h
      · exact Option.noConfusion h
      split at h
      case _ s9 heq2 =>
          split at h
          · exact Option.noConfusion h
          cases hws : ws1 (takeClass isWordC s9).2 with
          | none => rw [hws] at h; exact Option.noConfusion h
          | some r1 =>
              rw [hws] at h
              simp only [Option.map_some'] at h
              have hr : r1 = rest := congrArg Prod.snd (Option.some.inj h)
              subst hr
              intro x hx
              have h1 : x ∈ s9 :=
                takeClass_snd_sub isWordC s9 (ws1_sub _ _ hws hx)
              have h2 : x ∈ (takeClass isModC
                  (stripOpt '-'
                    (takeClass isSpaceC (takeClass isWordC s4).2).2)).2 := by
                rw [heq2]
                exact List.mem_cons_of_mem _ h1
              have h3 :=
                takeClass_snd_sub isSpaceC (takeClass isWordC s4).2
                  (stripOpt_sub '-' _ (takeClass_snd_sub isModC _ h2))
              have h4 : x ∈ s4 := takeClass_snd_sub isWordC s4 h3
              have h5 : x ∈ (takeClass isModC
                  (stripOpt '+' (takeClass isSpaceC s).2)).2 := by
                rw [heq1]
                exact List.mem_cons_of_mem _ h4
              exact takeClass_snd_sub isSpaceC s
                (stripOpt_sub '+' _ (takeClass_snd_sub isModC _ h5))
      · exact Option.noConfusion h
  · exact Option.noConfusion h

theorem colonSplit_sub (s : List Char) (g rest : List Char)
    (h : colonSplit s = some (g, rest)) : rest ⊆ s := by
  simp only [colonSplit] at h
  split at h
  · exact Option.noConfusion h
  split at h
  case _ rest2 heq =>
      have hr : rest2 = rest := congrArg Prod.snd (Option.some.inj h)
      subst hr
      intro x hx
      have h1 : x ∈ (takeClass isOwnerC s).2 := by
        rw [heq]
        exact List.mem_cons_of_mem _ hx
      exact takeClass_snd_sub isOwnerC s h1
  · exact Option.noConfusion h

theorem brackSplit_sub (s : List Char) (g rest : List Char)
    (h : brackSplit s = some (g, rest)) : rest ⊆ s := by
  simp only [brackSplit] at h
  split at h
  · exact Option.noConfusion h
  split at h
  case _ rest2 heq =>
      have hr : rest2 = rest := congrArg Prod.snd (Option.some.inj h)
      subst hr
      intro x hx
      have h1 : x ∈ (takeClass isOwnerC s).2 := by
        rw [heq]
        exact List.mem_cons_of_mem _ hx
      exact takeClass_snd_sub isOwnerC s h1
  · exact Option.noConfusion h

theorem arrowSplit_sub (s : List Char) (g rest : List Char)
    (h : arrowSplit s = some (g, rest)) : rest ⊆ s := by
  simp only [arrowSplit] at h
  split at h
  case _ pre heq =>
      split at h
      · exact Option.noConfusion h
      cases hd : dropLit "-> ".data (takeClass isOwnerC s).2 with
      | none => rw [hd] at h; exact Option.noConfusion h
      | some r1 =>
          rw [hd] at h
          simp only [Option.map_some'] at h
          have hr : r1 = rest := congrArg Prod.snd (Option.some.inj h)
          subst hr
          exact fun x hx =>
            takeClass_snd_sub isOwnerC s (dropLit_sub _ _ _ hd hx)
  · exact Option.noConfusion h

theorem tryOwner_sub (s : List Char)
    (g : List Char × List Char × List Char × List Char) (rest : List Char)
    (h : tryOwner s = some (g, rest)) : rest ⊆ s := by
  unfold tryOwner at h
  split at h
  case _ s1 =>
      cases h1 : colonSplit s1 with
      | none => rw [h1] at h; exact Option.noConfusion h
      | some v1 =>
          rw [h1] at h
          dsimp only [] at h
          cases h2 : arrowSplit v1.2 with
          | none => rw [h2] at h; exact Option.noConfusion h
          | some v2 =>
              rw [h2] at h
              dsimp only [] at h
              cases h3 : colonSplit v2.2 with
              | none => rw [h3] at h; exact Option.noConfusion h
              | some v3 =>
                  rw [h3] at h
                  dsimp only [] at h
                  cases h4 : brackSplit v3.2 with
                  | none => rw [h4] at h; exact Option.noConfusion h
                  | some v4 =>
                      rw [h4] at h
                      dsimp only [] at h
                      cases h5 : ws1 v4.2 with
                      | none => rw [h5] at h; exact Option.noConfusion h
                      | some r1 =>
                          rw [h5] at h
                          simp only [Option.map_some'] at h
                          have hr : r1 = rest :=
                            congrArg Prod.snd (Option.some.inj h)
                          subst hr
                          intro x hx
                          exact List.mem_cons_of_mem _
                            (colonSplit_sub s1 v1.1 v1.2 h1
                              (arrowSplit_sub v1.2 v2.1 v2.2 h2
                                (colonSplit_sub v2.2 v3.1 v3.2 h3
                                  (brackSplit_sub v3.2 v4.1 v4.2 h4
                                    (ws1_sub v4.2 r1 h5 hx)))))
  · exact Option.noConfusion h

theorem take10Mode_sub (s : List Char) (g rest : List Char)
    (h : take10Mode s = some (g, rest)) : rest ⊆ s := by
  simp only [take10Mode] at h
  split at h
  · have hr : s.drop 10 = rest := congrArg Prod.snd (Option.some.inj h)
    subst hr
    exact fun x hx => List.mem_of_mem_drop hx
  · exact Option.noConfusion h

theorem tryMode_sub (s : List Char) (g : List Char × List Char)
    (rest : List Char) (h : tryMode s = some (g, rest)) : rest ⊆ s := by
  unfold tryMode at h
  split at h
  case _ s1 =>
      cases h1 : take10Mode s1 with
      | none => rw [h1] at h; exact Option.noConfusion h
      | some v1 =>
          rw [h1] at h
          dsimp only [] at h
          cases h2 : dropLit " -> ".data v1.2 with
          | none => rw [h2] at h; exact Option.noConfusion h
          | some s3 =>
              rw [h2] at h
              dsimp only [] at h
              cases h3 : take10Mode s3 with
              | none => rw [h3] at h; exact Option.noConfusion h
              | some v3 =>
                  rw [h3] at h
                  dsimp only [] at h
                  split at h
                  case _ s5 heq =>
                      cases h5 : ws1 s5 with
                      | none => rw [h5] at h; exact Option.noConfusion h
                      | some r1 =>
                          rw [h5] at h
                          simp only [Option.map_some'] at h
                          have hr : r1 = rest :=
                            congrArg Prod.snd (Option.some.inj h)
                          subst hr
                          intro x hx
                          have hx1 : x ∈ v3.2 := by
                            rw [heq]
                            exact List.mem_cons_of_mem _ (ws1_sub s5 r1 h5 hx)
                          exact List.mem_cons_of_mem _
                            (take10Mode_sub s1 v1.1 v1.2 h1
                              (dropLit_sub _ _ _ h2
                                (take10Mode_sub s3 v3.1 v3.2 h3 hx1)))
                  · exact Option.noConfusion h
  · exact Option.noConfusion h

/-- C10: `re_changed_file.fullmatch` succeeds on every newline-free line
(the all-optional second alternative plus the trailing `.*` absorb
anything), so the "Couldn't parse diff output" branch of
`parse_diff_lines` is unreachable for such lines; in particular a line
that is a bare path with no change clause is accepted and classified
MODIFIED. -/
theorem c10_re_changed_file_total :
    (∀ s : List Char, '\n' ∉ s → (re_changed_file s).isSome = true) ∧
    ((parse_diff_lines ["just/a/plain/path".data] emptyModel).2 = none ∧
      ((getItem (parse_diff_lines ["just/a/plain/path".data]
          emptyModel).1 ["just", "a", "plain", "path"]).map FSItem.data)
        = some (some ⟨.FILE, some .MODIFIED, 0, none, none, none⟩)) := by
  constructor
  · intro s hnl
    unfold re_changed_file
    cases har : tryAR s with
    | some v =>
        obtain ⟨ar, t, szu, rest⟩ := v
        dsimp only []
        rw [if_neg (fun hx => hnl (tryAR_sub s ar t szu rest har hx))]
        rfl
    | none =>
        dsimp only []
        cases hcl : tryCL s with
        | some rest =>
            dsimp only []
            rw [if_neg (fun hx => hnl (tryCL_sub s rest hcl hx))]
            rfl
        | none =>
            dsimp only []
            cases hm : tryModified s with
            | some gm =>
                obtain ⟨g1, r1⟩ := gm
                dsimp only []
                have hs1 : r1 ⊆ s := tryModified_sub s g1 r1 hm
                cases ho : tryOwner r1 with
                | some go =>
                    obtain ⟨g2, r2⟩ := go
                    dsimp only []
                    have hs2 : r2 ⊆ s :=
                      fun x hx => hs1 (tryOwner_sub r1 g2 r2 ho hx)
                    cases hd : tryMode r2 with
                    | some gd =>
                        obtain ⟨g3, r3⟩ := gd
                        dsimp only []
                        rw [if_neg (fun hx =>
                          hnl (hs2 (tryMode_sub r2 g3 r3 hd hx)))]
                        rfl
                    | none =>
                        dsimp only []
                        rw [if_neg (fun hx => hnl (hs2 hx))]
                        rfl
                | none =>
                    dsimp only []
                    cases hd : tryMode r1 with
                    | some gd =>
                        obtain ⟨g3, r3⟩ := gd
                        dsimp only []
                        rw [if_neg (fun hx =>
                          hnl (hs1 (tryMode_sub r1 g3 r3 hd hx)))]
                        rfl
                    | none =>
                        dsimp only []
                        rw [if_neg (fun hx => hnl (hs1 hx))]
                        rfl
            | none =>
                dsimp only []
                cases ho : tryOwner s with
                | some go =>
                    obtain ⟨g2, r2⟩ := go
                    dsimp only []
                    have hs2 : r2 ⊆ s := tryOwner_sub s g2 r2 ho
                    cases hd : tryMode r2 with
                    | some gd =>
                        obtain ⟨g3, r3⟩ := gd
                        dsimp only []
                        rw [if_neg (fun hx =>
                          hnl (hs2 (tryMode_sub r2 g3 r3 hd hx)))]
                        rfl
                    | none =>
                        dsimp only []
                        rw [if_neg (fun hx => hnl (hs2 hx))]
                        rfl
                | none =>
                    dsimp only []
                    cases hd : tryMode s with
                    | some gd =>
                        obtain ⟨g3, r3⟩ := gd
                        dsimp only []
                        rw [if_neg (fun hx =>
                          hnl (tryMode_sub s g3 r3 hd hx))]
                        rfl
                    | none =>
                        dsimp only []
                        rw [if_neg hnl]
                        rfl
  · exact ⟨by decide, by decide⟩

/-- Witness for `c10_re_changed_file_total`: a concrete newline-free line
matches. -/
theorem c10_witness :
    ('\n' ∉ "added directoryX oddball [line".data ∧
      (re_changed_file "added directoryX oddball [line".data).isSome
        = true) :=
  ⟨by decide,
    c10_re_changed_file_total.1 "added directoryX oddball [line".data
      (by decide)⟩

/-- The model after inserting `a`, `a/b`, `a/b/c`, all with real payloads
(so that all three are in `_flattened`). -/
def mChain : Model :=
  addItem (addItem (addItem emptyModel ["a"] (some dAdd0))
    ["a", "b"] (some dAdd0)) ["a", "b", "c"] (some dAdd0)

/-- C4 (counterexample): removing `a` from `mChain` succeeds and removes
the whole subtree from the structural tree, but the grandchild `a/b/c`
stays in the flat index `_flattened` — the code removes only the node and
its *direct* children from `_flattened`. -/
theorem c4_counterexample_grandchild_stays :
    (removeItem mChain ["a"]).isSome = true ∧
    (removeItem mChain ["a"]).map
        (fun m' => (getItem m' ["a", "b", "c"]).isSome) = some false ∧
    (removeItem mChain ["a"]).map
        (fun m' => decide (["a", "b", "c"] ∈ m'.flattened)) = some true := by
  decide

theorem getSub_append (a : List String) :
    ∀ (n : FSItem) (b : List String),
      getSub n (a ++ b) = (getSub n a).bind (fun q => getSub q b) := by
  induction a with
  | nil => intro n b; rfl
  | cons s rest ih =>
      intro n b
      simp only [List.cons_append, getSub]
      cases hg : fsGet n.children s with
      | none => rfl
      | some ix =>
          dsimp only []
          exact ih ix.2 b

theorem fsGet_none_of_not_mem (cs : List FSItem) (s : String)
    (h : s ∉ cs.map FSItem.sub) : fsGet cs s = none := by
  induction cs with
  | nil => rfl
  | cons c rest ih =>
      simp only [List.map_cons, List.mem_cons, not_or] at h
      have hcs : ¬ c.sub = s := fun he => h.1 he.symm
      simp only [fsGet, if_neg hcs, ih h.2, Option.map_none']

theorem fsGet_eraseIdx_nodup (cs : List FSItem) (s : String)
    (ix : Nat × FSItem) (hnd : (cs.map FSItem.sub).Nodup)
    (h : fsGet cs s = some ix) : fsGet (cs.eraseIdx ix.1) s = none := by
  induction cs generalizing ix with
  | nil => simp [fsGet] at h
  | cons c rest ih =>
      simp only [List.map_cons, List.nodup_cons] at hnd
      simp only [fsGet] at h
      split at h
      case isTrue he =>
          cases h
          simp only [List.eraseIdx]
          apply fsGet_none_of_not_mem
          rw [← he]
          exact hnd.1
      case isFalse he =>
          cases hr : fsGet rest s with
          | none => rw [hr] at h; simp at h
          | some jx =>
              rw [hr] at h
              simp only [Option.map_some'] at h
              cases h
              simp only [List.eraseIdx]
              simp only [fsGet, if_neg he, ih jx hnd.2 hr, Option.map_none']

theorem fsGet_set_same (cs : List FSItem) (s : String) (ix : Nat × FSItem)
    (c' : FSItem) (hsub : c'.sub = ix.2.sub) (h : fsGet cs s = some ix) :
    fsGet (cs.set ix.1 c') s = some (ix.1, c') := by
  induction cs generalizing ix with
  | nil => simp [fsGet] at h
  | cons c rest ih =>
      simp only [fsGet] at h
      split at h
      case isTrue he =>
          cases h
          simp only [List.set]
          simp only [fsGet, if_pos (hsub.trans he)]
      case isFalse he =>
          cases hr : fsGet rest s with
          | none => rw [hr] at h; simp at h
          | some jx =>
              rw [hr] at h
              simp only [Option.map_some'] at h
              cases h
              simp only [List.set]
              simp only [fsGet, if_neg he, ih jx hsub hr, Option.map_some']

theorem removeAt_sub (n : FSItem) (pp : List String) (i : Nat) :
    (removeAt n pp i).sub = n.sub := by
  cases pp with
  | nil => rfl
  | cons s rest =>
      show (match fsGet n.children s with
        | none => n
        | some ix => FSItem.mk n.path n.sub n.data
            (n.children.set ix.1 (removeAt ix.2 rest i))).sub = n.sub
      cases fsGet n.children s with
      | none => rfl
      | some ix => rfl

theorem removeAt_getSub (pp : List String) :
    ∀ (n parent : FSItem) (i : Nat), getSub n pp = some parent →
      getSub (removeAt n pp i) pp
        = some (.mk parent.path parent.sub parent.data
            (parent.children.eraseIdx i)) := by
  induction pp with
  | nil =>
      intro n parent i h
      cases h
      cases n
      rfl
  | cons s rest ih =>
      intro n parent i h
      cases n with
      | mk np ns nd nc =>
          simp only [getSub, FSItem.children] at h
          cases hg : fsGet nc s with
          | none => rw [hg] at h; exact Option.noConfusion h
          | some jx =>
              rw [hg] at h
              have hset := fsGet_set_same nc s jx (removeAt jx.2 rest i)
                (removeAt_sub jx.2 rest i) hg
              simp only [removeAt, FSItem.children, hg]
              simp only [getSub, FSItem.children, hset]
              exact ih jx.2 parent i h

theorem findIdx_pre (x : List String) (pre post : List (List String))
    (hx : x ∉ pre) :
    ∀ i, (pre ++ x :: post).findIdx? (· == x) i = some (pre.length + i) := by
  induction pre with
  | nil =>
      intro i
      simp [List.findIdx?_cons]
  | cons a pre ih =>
      intro i
      simp only [List.mem_cons, not_or] at hx
      have ha : (a == x) = false := by
        simp only [beq_eq_false_iff_ne, ne_eq]
        exact fun he => hx.1 he.symm
      rw [List.cons_append, List.findIdx?_cons, ha]
      simp only [Bool.false_eq_true, if_false]
      rw [ih hx.2 (i + 1)]
      simp only [List.length_cons, Option.some.injEq]
      omega

theorem eraseIdx_append_len (pre : List (List String)) (x : List String)
    (l : List (List String)) :
    (pre ++ x :: l).eraseIdx pre.length = pre ++ l := by
  induction pre with
  | nil => rfl
  | cons a pre ih =>
      show ((a :: pre) ++ x :: l).eraseIdx (pre.length + 1) = (a :: pre) ++ l
      rw [List.cons_append, List.eraseIdx_cons_succ, ih, List.cons_append]

theorem removeChildPaths_eq_foldl (cs : List FSItem) :
    ∀ fl fl1, removeChildPaths fl cs = some fl1 →
      fl1 = cs.foldl (fun f c => f.erase c.path) fl := by
  induction cs with
  | nil =>
      intro fl fl1 h
      cases h
      rfl
  | cons c cs ih =>
      intro fl fl1 h
      simp only [removeChildPaths] at h
      split at h
      · exact ih _ fl1 h
      · exact Option.noConfusion h

theorem foldl_erase_append (cs : List FSItem) :
    ∀ (pre post : List (List String)) (x : List String),
      (∀ c ∈ cs, c.path ∉ pre ∧ c.path ≠ x) →
      cs.foldl (fun f c => f.erase c.path) (pre ++ x :: post)
        = pre ++ x :: cs.foldl (fun f c => f.erase c.path) post := by
  induction cs with
  | nil => intro pre post x _; rfl
  | cons c cs ih =>
      intro pre post x hc
      have h1 := hc c (List.mem_cons_self c cs)
      have hbeq : ¬(x == c.path) = true := by
        simp only [beq_iff_eq]
        exact fun he => h1.2 he.symm
      simp only [List.foldl_cons]
      rw [List.erase_append_right _ h1.1, List.erase_cons_tail hbeq]
      exact ih pre _ x (fun c2 hc2 => hc c2 (List.mem_cons_of_mem c hc2))

theorem mem_foldl_erase (cs : List FSItem) :
    ∀ (l : List (List String)) (q : List String), q ∈ l →
      (∀ c ∈ cs, q ≠ c.path) →
      q ∈ cs.foldl (fun f c => f.erase c.path) l := by
  induction cs with
  | nil => intro l q hq _; exact hq
  | cons c cs ih =>
      intro l q hq hne
      simp only [List.foldl_cons]
      exact ih _ q
        ((List.mem_erase_of_ne (hne c (List.mem_cons_self c cs))).mpr hq)
        (fun c2 hc2 => hne c2 (List.mem_cons_of_mem c hc2))

/-- C4 (amended): for a path present in the tree, a successful
`removeItem` removes the node *and all its descendants* from the
structural tree (no path at or below `p` resolves any more), but from the
flat index `_flattened` it removes only the node and its *direct*
children: every other entry — in particular every deeper descendant —
remains in `_flattened`.  The hypotheses state the shape a model built by
`addItem` always has: sibling subpaths at the parent are unique, and the
node appears in `_flattened` before its children (`pre` is the part before
the node's entry). -/
theorem c4_amended_remove_direct_children_only (m m' : Model)
    (p : List String) (item : FSItem) (pre post : List (List String))
    (hp : p ≠ [])
    (hitem : getItem m p = some item)
    (huniq : ∀ q, getSub m.root p.dropLast = some q →
      (q.children.map FSItem.sub).Nodup)
    (hsplit : m.flattened = pre ++ item.path :: post)
    (hpre : item.path ∉ pre)
    (hcpre : ∀ c ∈ item.children, c.path ∉ pre ∧ c.path ≠ item.path)
    (h : removeItem m p = some m') :
    (∀ r, getItem m' (p ++ r) = none) ∧
    (∀ q ∈ m.flattened, q ≠ item.path →
      (∀ c ∈ item.children, q ≠ c.path) → q ∈ m'.flattened) := by
  have hglast : p.dropLast ++ [p.getLast hp] = p :=
    List.dropLast_append_getLast hp
  rw [getItem, ← hglast, getSub_append] at hitem
  cases hpar : getSub m.root p.dropLast with
  | none => rw [hpar] at hitem; exact Option.noConfusion hitem
  | some parent =>
      rw [hpar] at hitem
      simp only [getSub] at hitem
      dsimp only [Option.bind] at hitem
      cases hfg : fsGet parent.children (p.getLast hp) with
      | none => rw [hfg] at hitem; exact Option.noConfusion hitem
      | some ix =>
          rw [hfg] at hitem
          have hix : ix.2 = item := Option.some.inj hitem
          unfold removeItem at h
          rw [List.getLast?_eq_getLast p hp] at h
          dsimp only [] at h
          rw [hpar] at h
          dsimp only [] at h
          rw [hfg] at h
          dsimp only [] at h
          rw [hix, hsplit, findIdx_pre item.path pre post hpre 0] at h
          simp only [Nat.add_zero] at h
          cases hrc : removeChildPaths (pre ++ item.path :: post)
              item.children with
          | none => rw [hrc] at h; exact Option.noConfusion h
          | some fl1 =>
              rw [hrc] at h
              dsimp only [] at h
              have hm' := Option.some.inj h
              have hroot : m'.root = removeAt m.root p.dropLast ix.1 :=
                (congrArg Model.root hm').symm
              have hflat : m'.flattened = fl1.eraseIdx pre.length :=
                (congrArg Model.flattened hm').symm
              have hfold := removeChildPaths_eq_foldl item.children
                (pre ++ item.path :: post) fl1 hrc
              rw [foldl_erase_append item.children pre post item.path
                hcpre] at hfold
              constructor
              · intro r
                have hnd := huniq parent hpar
                have hre := removeAt_getSub p.dropLast m.root parent ix.1 hpar
                have hnone := fsGet_eraseIdx_nodup parent.children
                  (p.getLast hp) ix hnd hfg
                have hpr : p ++ r = p.dropLast ++ ((p.getLast hp) :: r) := by
                  rw [← List.singleton_append, ← List.append_assoc, hglast]
                have hnone2 : fsGet (FSItem.mk parent.path parent.sub
                    parent.data (parent.children.eraseIdx ix.1)).children
                    (p.getLast hp) = none := hnone
                rw [getItem, hpr, getSub_append, hroot, hre]
                dsimp only [Option.bind]
                simp only [getSub, hnone2]
              · intro q hq hqp hqc
                rw [hflat, hfold, eraseIdx_append_len]
                rw [hsplit] at hq
                rcases List.mem_append.mp hq with h1 | h2
                · exact List.mem_append_left _ h1
                · rcases List.mem_cons.mp h2 with h3 | h4
                  · exact absurd h3 hqp
                  · exact List.mem_append_right _
                      (mem_foldl_erase item.children post q h4 hqc)

/-- The node for `a` inside `mChain`. -/
def itemA : FSItem :=
  .mk ["a"] "a" (some dAdd0)
    [.mk ["a", "b"] "b" (some dAdd0) [.mk ["a", "b", "c"] "c" (some dAdd0) []]]

/-- The model `removeItem` produces from `mChain` at `a`. -/
def mRemoved : Model :=
  { root := .mk [] "" none [], flattened := [["a", "b", "c"]],
    mode := .TREE }

/-- Witness for `c4_amended_remove_direct_children_only` at `mChain`:
after removing `a`, nothing at or below `a` resolves, and the grandchild
path `a/b/c` is still in `_flattened`. -/
theorem c4_witness :
    removeItem mChain ["a"] = some mRemoved ∧
    (∀ r, getItem mRemoved (["a"] ++ r) = none) ∧
    ["a", "b", "c"] ∈ mRemoved.flattened :=
  have happ := c4_amended_remove_direct_children_only mChain mRemoved
    ["a"] itemA [] [["a", "b"], ["a", "b", "c"]] (by decide) (by rfl)
    (by
      intro q hq
      have hq2 := Option.some.inj hq
      rw [← hq2]
      decide)
    (by rfl) (by decide) (by decide) (by rfl)
  ⟨by rfl, happ.1,
    happ.2 ["a", "b", "c"] (by decide) (by decide) (by decide)⟩

/-- Payload `DiffData(FILE, ADDED, 10)`. -/
def dAdd10 : DiffData := ⟨.FILE, some .ADDED, 10, none, none, none⟩

/-- Payload `DiffData(FILE, ADDED, 5)`. -/
def dAdd5 : DiffData := ⟨.FILE, some .ADDED, 5, none, none, none⟩

/-- Build a model by inserting a list of `(path, payload)` pairs into the
empty model, as the parsers do. -/
def buildModel (L : List (List String × Option DiffData)) : Model :=
  L.foldl (fun m pr => addItem m pr.1 pr.2) emptyModel

/-- Insertions where a later record path properly extends an earlier one:
`a/b` (size 10) and then `a/b/c` (size 5). -/
def l0Nested : List (List String × Option DiffData) :=
  [(["a", "b"], some dAdd10), (["a", "b", "c"], some dAdd5)]

/-- C5 (counterexample): after inserting `a/b` (size 10) and `a/b/c`
(size 5), the node `a/b` stores `size_delta = 15`, but the only descendant
leaf with a real payload is `a/b/c` with 5 — so the stored ancestor size
does not equal the sum over descendant real leaves, and `sizesOK` fails
for the tree. -/
theorem c5_counterexample_nested_insert :
    sizesOK (buildModel l0Nested) = false ∧
    (getItem (buildModel l0Nested) ["a", "b"]).map
        (fun n => dataSize n.data) = some 15 ∧
    (getItem (buildModel l0Nested) ["a", "b"]).map
        (fun n => leafSum n) = some 5 := by
  decide

theorem leafSum_leaf (p : List String) (s : String) (d : Option DiffData) :
    leafSum (.mk p s d []) = if realData d then dataSize d else 0 := rfl

theorem leafSum_node (p : List String) (s : String) (d : Option DiffData)
    (c : FSItem) (cs : List FSItem) :
    leafSum (.mk p s d (c :: cs)) = leafSumL (c :: cs) := rfl

theorem leafSumL_cons (c : FSItem) (cs : List FSItem) :
    leafSumL (c :: cs) = leafSum c + leafSumL cs := rfl

mutual

/-- The tree invariant maintained by `addItem` under non-nested record
paths, for a node expected below the (possibly synthetic) path `pp`:
the path links up with the parent, data is present, the stored size equals
the real-leaf sum of the subtree, real nodes are leaves whose path is one
of the inserted paths `S`, and the children satisfy the same invariant. -/
def GoodN (S : List (List String)) (pp : List String) : FSItem → Prop
  | .mk cp csub cd cc =>
      cp = pp ++ [csub] ∧ cd.isSome = true ∧
      dataSize cd = leafSum (.mk cp csub cd cc) ∧
      (realData cd = true → cc = [] ∧ cp ∈ S) ∧
      GoodL S cp cc

/-- `GoodN` for every tree in the list. -/
def GoodL (S : List (List String)) (pp : List String) : List FSItem → Prop
  | [] => True
  | c :: cs => GoodN S pp c ∧ GoodL S pp cs

end

theorem GoodN_def (S : List (List String)) (pp cp : List String)
    (csub : String) (cd : Option DiffData) (cc : List FSItem) :
    GoodN S pp (.mk cp csub cd cc) =
      (cp = pp ++ [csub] ∧ cd.isSome = true ∧
        dataSize cd = leafSum (.mk cp csub cd cc) ∧
        (realData cd = true → cc = [] ∧ cp ∈ S) ∧
        GoodL S cp cc) := rfl

theorem GoodL_nil (S : List (List String)) (pp : List String) :
    GoodL S pp [] := trivial

theorem GoodL_cons (S : List (List String)) (pp : List String) (c : FSItem)
    (cs : List FSItem) :
    GoodL S pp (c :: cs) = (GoodN S pp c ∧ GoodL S pp cs) := rfl

theorem GoodN_iff (S : List (List String)) (pp : List String) (n : FSItem) :
    GoodN S pp n ↔
      (n.path = pp ++ [n.sub] ∧ n.data.isSome = true ∧
        dataSize n.data = leafSum n ∧
        (realData n.data = true → n.children = [] ∧ n.path ∈ S) ∧
        GoodL S n.path n.children) := by
  cases n with
  | mk cp csub cd cc => exact Iff.rfl

theorem bump_path (n : FSItem) (s : Int) : (bump n s).path = n.path := by
  unfold bump; split
  · rfl
  · cases n with | mk p sp d cs => rfl

theorem bump_sub (n : FSItem) (s : Int) : (bump n s).sub = n.sub := by
  unfold bump; split
  · rfl
  · cases n with | mk p sp d cs => rfl

theorem bump_children (n : FSItem) (s : Int) :
    (bump n s).children = n.children := by
  unfold bump; split
  · rfl
  · cases n with | mk p sp d cs => rfl

theorem bump_isSome (n : FSItem) (s : Int) :
    (bump n s).data.isSome = n.data.isSome := by
  unfold bump; split
  · rfl
  · cases n with
    | mk p sp d cs => cases d <;> rfl

theorem realData_bump (n : FSItem) (s : Int) :
    realData (bump n s).data = realData n.data := by
  unfold bump; split
  · rfl
  · cases n with
    | mk p sp d cs => cases d <;> rfl

theorem dataSize_bump (n : FSItem) (s : Int) (h : n.data.isSome = true) :
    dataSize (bump n s).data = dataSize n.data + s := by
  unfold bump; split
  · omega
  · cases n with
    | mk p sp d cs =>
        cases d with
        | none => exact Bool.noConfusion h
        | some dd => simp [FSItem.data, dataSize]

theorem leafSum_bump_ne (n : FSItem) (s : Int) (h : n.children ≠ []) :
    leafSum (bump n s) = leafSumL n.children := by
  unfold bump; split
  · cases n with
    | mk p sp d cs =>
        cases cs with
        | nil => exact absurd rfl h
        | cons c rest => rfl
  · cases n with
    | mk p sp d cs =>
        cases cs with
        | nil => exact absurd rfl h
        | cons c rest => rfl

theorem fsGet_sub_eq (cs : List FSItem) (s : String) (ix : Nat × FSItem)
    (h : fsGet cs s = some ix) : ix.2.sub = s := by
  induction cs generalizing ix with
  | nil => exact Option.noConfusion h
  | cons c rest ih =>
      unfold fsGet at h
      split at h
      · cases h; assumption
      · obtain ⟨ix0, h0, h1⟩ := Option.map_eq_some'.mp h
        have := ih ix0 h0
        cases h1; exact this

theorem GoodL_fsGet (S : List (List String)) (pp : List String)
    (cs : List FSItem) (s : String) (ix : Nat × FSItem)
    (hg : GoodL S pp cs) (h : fsGet cs s = some ix) : GoodN S pp ix.2 := by
  induction cs generalizing ix with
  | nil => exact Option.noConfusion h
  | cons c rest ih =>
      obtain ⟨hc, hrest⟩ := hg
      unfold fsGet at h
      split at h
      · cases h; exact hc
      · obtain ⟨ix0, h0, h1⟩ := Option.map_eq_some'.mp h
        have := ih ix0 hrest h0
        cases h1; exact this

theorem GoodL_set (S : List (List String)) (pp : List String)
    (cs : List FSItem) (i : Nat) (c : FSItem)
    (hg : GoodL S pp cs) (hc : GoodN S pp c) : GoodL S pp (cs.set i c) := by
  induction cs generalizing i with
  | nil => exact trivial
  | cons a rest ih =>
      obtain ⟨ha, hrest⟩ := hg
      cases i with
      | zero => exact ⟨hc, hrest⟩
      | succ j => exact ⟨ha, ih j hrest⟩

theorem GoodL_append (S : List (List String)) (pp : List String)
    (cs : List FSItem) (c : FSItem)
    (hg : GoodL S pp cs) (hc : GoodN S pp c) : GoodL S pp (cs ++ [c]) := by
  induction cs with
  | nil => exact ⟨hc, trivial⟩
  | cons a rest ih =>
      obtain ⟨ha, hrest⟩ := hg
      exact ⟨ha, ih hrest⟩

theorem leafSumL_append (cs : List FSItem) (c : FSItem) :
    leafSumL (cs ++ [c]) = leafSumL cs + leafSum c := by
  induction cs with
  | nil => simp [leafSumL]
  | cons a rest ih =>
      rw [List.cons_append, leafSumL_cons, leafSumL_cons, ih]
      ring

theorem leafSumL_set (cs : List FSItem) (s : String) (ix : Nat × FSItem)
    (c : FSItem) (h : fsGet cs s = some ix) :
    leafSumL (cs.set ix.1 c) = leafSumL cs + (leafSum c - leafSum ix.2) := by
  induction cs generalizing ix with
  | nil => exact Option.noConfusion h
  | cons a rest ih =>
      unfold fsGet at h
      split at h
      · cases h
        rw [List.set_cons_zero, leafSumL_cons, leafSumL_cons]
        ring
      · obtain ⟨ix0, h0, h1⟩ := Option.map_eq_some'.mp h
        cases h1
        rw [List.set_cons_succ, leafSumL_cons, leafSumL_cons, ih ix0 h0]
        ring

theorem starts_append_left (x y : List String) : starts (x ++ y) x = true := by
  induction x with
  | nil => cases y <;> rfl
  | cons a as ih => simp [starts, ih]

theorem properExt_append (x y : List String) (h : y ≠ []) :
    properExt (x ++ y) x = true := by
  cases y with
  | nil => exact absurd rfl h
  | cons b bs =>
      simp [properExt, starts_append_left, List.length_append]

theorem leafSum_not_real (n : FSItem) (h : realData n.data = false) :
    leafSum n = leafSumL n.children := by
  cases n with
  | mk p s dd cs =>
      cases cs with
      | nil =>
          simp only [FSItem.data] at h
          simp only [leafSum, leafSumL, FSItem.children, h]
          rfl
      | cons c rest => rfl

theorem set_ne_nil (cs : List FSItem) (i : Nat) (c : FSItem)
    (h : cs ≠ []) : cs.set i c ≠ [] := by
  cases cs with
  | nil => exact absurd rfl h
  | cons a rest => cases i <;> simp

theorem fsGet_ne_nil (cs : List FSItem) (s : String) (ix : Nat × FSItem)
    (h : fsGet cs s = some ix) : cs ≠ [] := by
  cases cs with
  | nil => exact Option.noConfusion h
  | cons a rest => simp

theorem insertGo_good (S : List (List String)) (d : Option DiffData)
    (hd : ∀ dd, d = some dd → dd.change_type ≠ some ChangeType.NONE) :
    ∀ parts acc (n : FSItem), parts ≠ [] →
    GoodL S acc n.children →
    acc ++ parts ∈ S →
    (∀ q ∈ S, properExt (acc ++ parts) q = false) →
    (insertGo n acc parts d).1.path = n.path ∧
    (insertGo n acc parts d).1.sub = n.sub ∧
    (insertGo n acc parts d).1.data = n.data ∧
    (insertGo n acc parts d).1.children ≠ [] ∧
    GoodL S acc (insertGo n acc parts d).1.children ∧
    leafSumL (insertGo n acc parts d).1.children =
      leafSumL n.children + (insertGo n acc parts d).2.1 := by
  intro parts
  induction parts with
  | nil => intro acc n hne; exact absurd rfl hne
  | cons p1 tail ih =>
      intro acc n _ hg hmem hnext
      cases tail with
      | nil =>
          cases hfs : fsGet n.children p1 with
          | some ix =>
              have hEq : insertGo n acc [p1] d =
                  (.mk n.path n.sub n.data
                    (n.children.set ix.1 (mergeData ix.2 d)), 0, []) := by
                unfold insertGo
                rw [hfs]
              have hgN := GoodL_fsGet S acc n.children p1 ix hg hfs
              have hmrg : mergeData ix.2 d = ix.2 :=
                mergeData_isSome ix.2 d ((GoodN_iff S acc ix.2).mp hgN).2.1
              rw [hEq, hmrg]
              refine ⟨rfl, rfl, rfl, ?_, ?_, ?_⟩
              · exact set_ne_nil _ _ _ (fsGet_ne_nil _ _ _ hfs)
              · exact GoodL_set S acc n.children ix.1 ix.2 hg hgN
              · show leafSumL (n.children.set ix.1 ix.2) =
                  leafSumL n.children + 0
                rw [leafSumL_set n.children p1 ix ix.2 hfs]
                ring
          | none =>
              have hEq : insertGo n acc [p1] d =
                  (.mk n.path n.sub n.data (n.children ++
                      [.mk (acc ++ [p1]) p1 (some (d.getD defaultData)) []]),
                    (d.getD defaultData).size,
                    if realData d then [acc ++ [p1]] else []) := by
                unfold insertGo
                rw [hfs]
              have hls : leafSum (.mk (acc ++ [p1]) p1
                  (some (d.getD defaultData)) []) = (d.getD defaultData).size := by
                cases d with
                | none =>
                    simp only [Option.getD]
                    rfl
                | some dd0 =>
                    have hr : realData (some dd0) = true := by
                      simp [realData, hd dd0 rfl]
                    dsimp only [Option.getD]
                    rw [leafSum_leaf, hr]
                    rfl
              have hgC : GoodN S acc
                  (.mk (acc ++ [p1]) p1 (some (d.getD defaultData)) []) := by
                rw [GoodN_iff]
                refine ⟨rfl, rfl, ?_, ?_, trivial⟩
                · rw [hls]; rfl
                · intro _
                  exact ⟨rfl, hmem⟩
              rw [hEq]
              refine ⟨rfl, rfl, rfl, ?_, ?_, ?_⟩
              · show n.children ++
                  [.mk (acc ++ [p1]) p1 (some (d.getD defaultData)) []] ≠ []
                simp
              · exact GoodL_append S acc n.children _ hg hgC
              · show leafSumL (n.children ++
                    [.mk (acc ++ [p1]) p1 (some (d.getD defaultData)) []]) =
                  leafSumL n.children + (d.getD defaultData).size
                rw [leafSumL_append, hls]
      | cons p2 rest =>
          have hsplit : acc ++ p1 :: p2 :: rest =
              (acc ++ [p1]) ++ (p2 :: rest) := by simp
          have hmem2 : (acc ++ [p1]) ++ (p2 :: rest) ∈ S := by
            rw [← hsplit]; exact hmem
          have hnext2 : ∀ q ∈ S,
              properExt ((acc ++ [p1]) ++ (p2 :: rest)) q = false := by
            rw [← hsplit]; exact hnext
          cases hfs : fsGet n.children p1 with
          | some ix =>
              have hEq : insertGo n acc (p1 :: p2 :: rest) d =
                  (.mk n.path n.sub n.data
                    (n.children.set ix.1
                      (bump (insertGo ix.2 (acc ++ [p1]) (p2 :: rest) d).1
                        (insertGo ix.2 (acc ++ [p1]) (p2 :: rest) d).2.1)),
                    (insertGo ix.2 (acc ++ [p1]) (p2 :: rest) d).2.1,
                    (insertGo ix.2 (acc ++ [p1]) (p2 :: rest) d).2.2) := by
                conv_lhs => rw [insertGo]
                rw [hfs]
              have hgN := GoodL_fsGet S acc n.children p1 ix hg hfs
              obtain ⟨hpathN, hsomeN, hszN, hrealN, hglN⟩ :=
                (GoodN_iff S acc ix.2).mp hgN
              have hsubN : ix.2.sub = p1 := fsGet_sub_eq n.children p1 ix hfs
              rw [hsubN] at hpathN
              have hnr : realData ix.2.data = false := by
                cases hr : realData ix.2.data with
                | false => rfl
                | true =>
                    obtain ⟨-, hmemN⟩ := hrealN hr
                    have := hnext ix.2.path (hmemN)
                    rw [hpathN, hsplit] at this
                    rw [properExt_append (acc ++ [p1]) (p2 :: rest)
                      (by simp)] at this
                    exact Bool.noConfusion this
              have hlsN : leafSum ix.2 = leafSumL ix.2.children :=
                leafSum_not_real ix.2 hnr
              rw [hpathN] at hglN
              obtain ⟨hrp, hrs, hrd, hrc, hrg, hrl⟩ :=
                ih (acc ++ [p1]) ix.2 (by simp) hglN hmem2 hnext2
              set r1 := insertGo ix.2 (acc ++ [p1]) (p2 :: rest) d with hr1
              have hgC : GoodN S acc (bump r1.1 r1.2.1) := by
                rw [GoodN_iff]
                refine ⟨?_, ?_, ?_, ?_, ?_⟩
                · rw [bump_path, bump_sub, hrp, hrs, hsubN, hpathN]
                · rw [bump_isSome, hrd, hsomeN]
                · rw [dataSize_bump r1.1 r1.2.1 (by rw [hrd]; exact hsomeN),
                    leafSum_bump_ne r1.1 r1.2.1 hrc, hrd, hszN, hlsN, hrl]
                · intro hr
                  rw [realData_bump, hrd, hnr] at hr
                  exact Bool.noConfusion hr
                · rw [bump_path, bump_children, hrp, hpathN]
                  exact hrg
              rw [hEq]
              refine ⟨rfl, rfl, rfl, ?_, ?_, ?_⟩
              · exact set_ne_nil _ _ _ (fsGet_ne_nil _ _ _ hfs)
              · exact GoodL_set S acc n.children ix.1 _ hg hgC
              · show leafSumL (n.children.set ix.1 (bump r1.1 r1.2.1)) =
                  leafSumL n.children + r1.2.1
                rw [leafSumL_set n.children p1 ix _ hfs,
                  leafSum_bump_ne r1.1 r1.2.1 hrc, hrl, hlsN]
                ring
          | none =>
              have hEq : insertGo n acc (p1 :: p2 :: rest) d =
                  (.mk n.path n.sub n.data
                    (n.children ++
                      [bump (insertGo (.mk (acc ++ [p1]) p1 (some defaultData) [])
                          (acc ++ [p1]) (p2 :: rest) d).1
                        (insertGo (.mk (acc ++ [p1]) p1 (some defaultData) [])
                          (acc ++ [p1]) (p2 :: rest) d).2.1]),
                    (insertGo (.mk (acc ++ [p1]) p1 (some defaultData) [])
                      (acc ++ [p1]) (p2 :: rest) d).2.1,
                    (insertGo (.mk (acc ++ [p1]) p1 (some defaultData) [])
                      (acc ++ [p1]) (p2 :: rest) d).2.2) := by
                conv_lhs => rw [insertGo]
                rw [hfs]
              obtain ⟨hrp, hrs, hrd, hrc, hrg, hrl⟩ :=
                ih (acc ++ [p1]) (.mk (acc ++ [p1]) p1 (some defaultData) [])
                  (by simp) trivial hmem2 hnext2
              set r1 := insertGo (.mk (acc ++ [p1]) p1 (some defaultData) [])
                (acc ++ [p1]) (p2 :: rest) d with hr1
              have hgC : GoodN S acc (bump r1.1 r1.2.1) := by
                rw [GoodN_iff]
                refine ⟨?_, ?_, ?_, ?_, ?_⟩
                · rw [bump_path, bump_sub, hrp, hrs]
                  rfl
                · rw [bump_isSome, hrd]
                  rfl
                · rw [dataSize_bump r1.1 r1.2.1 (by rw [hrd]; rfl),
                    leafSum_bump_ne r1.1 r1.2.1 hrc, hrd, hrl]
                  simp only [FSItem.data, FSItem.children, dataSize, leafSumL]
                  have : defaultData.size = 0 := rfl
                  omega
                · intro hr
                  rw [realData_bump, hrd] at hr
                  exact Bool.noConfusion hr
                · rw [bump_path, bump_children, hrp]
                  exact hrg
              rw [hEq]
              refine ⟨rfl, rfl, rfl, ?_, ?_, ?_⟩
              · show n.children ++ [bump r1.1 r1.2.1] ≠ []
                simp
              · exact GoodL_append S acc n.children _ hg hgC
              · show leafSumL (n.children ++ [bump r1.1 r1.2.1]) =
                  leafSumL n.children + r1.2.1
                rw [leafSumL_append,
                  leafSum_bump_ne r1.1 r1.2.1 hrc, hrl]
                show leafSumL n.children + (leafSumL
                    (FSItem.mk (acc ++ [p1]) p1 (some defaultData) []).children
                  + r1.2.1) = leafSumL n.children + r1.2.1
                show leafSumL n.children + (leafSumL [] + r1.2.1) =
                  leafSumL n.children + r1.2.1
                show leafSumL n.children + (0 + r1.2.1) =
                  leafSumL n.children + r1.2.1
                ring

theorem addItem_good (S : List (List String)) (m : Model) (p : List String)
    (d : Option DiffData)
    (hd : ∀ dd, d = some dd → dd.change_type ≠ some ChangeType.NONE)
    (hmem : p ∈ S) (hnext : ∀ q ∈ S, properExt p q = false)
    (hg : GoodL S [] m.root.children) :
    GoodL S [] (addItem m p d).root.children := by
  cases p with
  | nil => exact hg
  | cons p1 tail =>
      have h := insertGo_good S d hd (p1 :: tail) [] m.root (by simp) hg
        (by simpa using hmem) (by simpa using hnext)
      show GoodL S [] (insertGo m.root [] (p1 :: tail) d).1.children
      exact h.2.2.2.2.1

theorem build_good (S : List (List String)) :
    ∀ (L : List (List String × Option DiffData)),
    (∀ pr ∈ L, ∀ dd, pr.2 = some dd → dd.change_type ≠ some ChangeType.NONE) →
    (∀ pr ∈ L, pr.1 ∈ S) →
    (∀ pr ∈ L, ∀ q ∈ S, properExt pr.1 q = false) →
    ∀ m, GoodL S [] m.root.children →
    GoodL S []
      ((L.foldl (fun m pr => addItem m pr.1 pr.2) m)).root.children := by
  intro L
  induction L with
  | nil => intro _ _ _ m hg; exact hg
  | cons pr rest ih =>
      intro hd hmem hnext m hg
      rw [List.foldl_cons]
      refine ih (fun q hq => hd q (List.mem_cons_of_mem pr hq))
        (fun q hq => hmem q (List.mem_cons_of_mem pr hq))
        (fun q hq => hnext q (List.mem_cons_of_mem pr hq))
        (addItem m pr.1 pr.2) ?_
      exact addItem_good S m pr.1 pr.2 (hd pr (List.mem_cons_self pr rest))
        (hmem pr (List.mem_cons_self pr rest))
        (hnext pr (List.mem_cons_self pr rest)) hg

mutual

theorem goodN_subOK (S : List (List String)) :
    ∀ (pp : List String) (n : FSItem), GoodN S pp n → subOK n = true
  | pp, .mk cp csub cd cc, h => by
      obtain ⟨-, -, hsz, -, hgl⟩ := h
      have hc := goodL_subOKL S cp cc hgl
      simp only [subOK, Bool.and_eq_true, beq_iff_eq]
      exact ⟨hsz, hc⟩

theorem goodL_subOKL (S : List (List String)) :
    ∀ (pp : List String) (cs : List FSItem), GoodL S pp cs → subOKL cs = true
  | _, [], _ => rfl
  | pp, c :: cs, h => by
      obtain ⟨hc, hrest⟩ := h
      simp only [subOKL, Bool.and_eq_true]
      exact ⟨goodN_subOK S pp c hc, goodL_subOKL S pp cs hrest⟩

end

theorem realData_some (dd : DiffData) (h : realData (some dd) = true) :
    dd.change_type ≠ some ChangeType.NONE := by
  simpa [realData] using h

/-- C5 (amended): when no inserted path strictly extends another inserted
path (the terminal of each record is a leaf, as for the records of one
borg diff), and every inserted payload carries a real change type (as both
parsers guarantee), the size aggregation invariant holds: every node of the
tree built by the insertions stores exactly the sum of the `size_delta`
of its descendant real-payload leaves. -/
theorem c5_amended_sizes_aggregate (L : List (List String × Option DiffData))
    (hd : ∀ pr ∈ L, pr.2.isSome = true → realData pr.2 = true)
    (hnest : ∀ pr ∈ L, ∀ qr ∈ L, properExt pr.1 qr.1 = false) :
    sizesOK (buildModel L) = true := by
  have hd2 : ∀ pr ∈ L, ∀ dd, pr.2 = some dd →
      dd.change_type ≠ some ChangeType.NONE := by
    intro pr hpr dd hdd
    have h1 : realData pr.2 = true := hd pr hpr (by rw [hdd]; rfl)
    rw [hdd] at h1
    exact realData_some dd h1
  have hg := build_good (L.map Prod.fst) L hd2
    (fun pr hpr => List.mem_map_of_mem Prod.fst hpr)
    (fun pr hpr q hq => by
      obtain ⟨qr, hqr, hq2⟩ := List.mem_map.mp hq
      rw [← hq2]
      exact hnest pr hpr qr hqr)
    emptyModel trivial
  exact goodL_subOKL (L.map Prod.fst) [] _ hg

/-- Witness for C5 (amended) at the two sibling records `a` (size 10)
and `b/c` (size 5), both `ADDED`. -/
theorem c5_amended_witness :
    ((∀ pr ∈ [(["a"], some dAdd10), (["b", "c"], some dAdd5)],
        (pr.2 : Option DiffData).isSome = true → realData pr.2 = true) ∧
      (∀ pr ∈ [(["a"], some dAdd10), (["b", "c"], some dAdd5)],
        ∀ qr ∈ [(["a"], some dAdd10), (["b", "c"], some dAdd5)],
          properExt pr.1 qr.1 = false)) ∧
    sizesOK (buildModel [(["a"], some dAdd10), (["b", "c"], some dAdd5)]) =
      true :=
  ⟨⟨by decide, by decide⟩,
    c5_amended_sizes_aggregate [(["a"], some dAdd10), (["b", "c"], some dAdd5)]
      (by decide) (by decide)⟩
